import Mathlib

/-!
Verification of the VibeFoundry sandbox sync and script-runner core.

This file gives a shallow embedding of the relevant source functions:

* `src/frontend/src/utils/codespaceSync.js`:
  `shouldBlockSync`, `collectFilesRecursive`, `uploadScript`,
  `pushScriptsToCodespace`, `syncScriptsToLocal`, `runFullSync`;
* `src/frontend/src/utils/fileSystem.js`:
  `shouldDeleteFile`, `buildFileTreeFromHandle`;
* `src/frontend/src/components/ScriptRunner.jsx`:
  `queueScripts`, `processQueue`, `detectMissingModule`.

Strings are modelled as `List Char` (`Str`). File paths built by the code
with string concatenation `pre + "/" + name` are modelled as component
lists (`Path := List Str`); `joinPath` recovers the slash-joined string
where the source applies a string-level check to a joined path.
JavaScript numbers holding unix modification times are modelled as `ℚ`,
with `Math.floor` modelled by `Rat.floor`.  Network and filesystem
effects are modelled by explicit oracles (`fetch`, `net`) and by traces
of the calls and writes the code performs.
-/

namespace VF

/-- Strings, modelled as lists of characters. -/
abbrev Str := List Char

/-- Filesystem paths as lists of components (joined with "/" by the code). -/
abbrev Path := List Str

/-- The single-quote character (codepoint 39). -/
def squote : Char := Char.ofNat 39

/-- The double-quote character (codepoint 34). -/
def dquote : Char := Char.ofNat 34

/-- The suffix of `s` after its last dot, or all of `s` when it has no dot.
This is the JS idiom `filename.split(".").pop()`. -/
def afterLastDot : Str → Str
  | [] => []
  | c :: rest =>
    if ('.' : Char) ∈ rest then afterLastDot rest
    else if c = '.' then rest else c :: rest

/-- codespaceSync.js / fileSystem.js:
`const ext = "." + filename.split(".").pop().toLowerCase()`. -/
def extOf (filename : Str) : Str :=
  '.' :: (afterLastDot filename).map Char.toLower

/-- codespaceSync.js line 7: extensions that never cross the outbound sync
boundary. -/
def FORBIDDEN_SYNC_EXTENSIONS : List Str :=
  [".pdf".data, ".csv".data, ".xlsx".data, ".xls".data,
   ".xlsm".data, ".xlsb".data, ".ppt".data, ".pptx".data]

/-- codespaceSync.js `shouldBlockSync`: block a filename whose extension is
forbidden for sync. -/
def shouldBlockSync (filename : Str) : Bool :=
  FORBIDDEN_SYNC_EXTENSIONS.contains (extOf filename)

/-- fileSystem.js line 7: data-file extensions auto-deleted inside
`app_folder`. -/
def FORBIDDEN_EXTENSIONS : List Str :=
  [".csv".data, ".xlsx".data, ".xls".data, ".json".data]

/-- fileSystem.js line 8: `50 * 1024`. -/
def MAX_TXT_SIZE_BYTES : Nat := 50 * 1024

/-- fileSystem.js `shouldDeleteFile`.  `size = none` models a failing
`fileHandle.getFile()` (the catch branch): the file is then NOT deleted. -/
def shouldDeleteFile (name : Str) (size : Option Nat) : Bool :=
  if FORBIDDEN_EXTENSIONS.contains (extOf name) then true
  else if extOf name = ".txt".data then
    match size with
    | some n => decide (MAX_TXT_SIZE_BYTES < n)
    | none => false
  else false

/-- A local filesystem entry (a browser FileSystemHandle).
For files, `size = none` and `lastModified = none` model a failing
`getFile()` stat; `deleteOk` tells whether a `removeEntry` on this file
would succeed. -/
inductive FsEntry : Type where
  | file (name : Str) (size : Option Nat) (content : Str)
      (lastModified : Option Int) (deleteOk : Bool)
  | dir (name : Str) (children : List FsEntry)

/-- The name of an entry. -/
def FsEntry.name : FsEntry → Str
  | .file n _ _ _ _ => n
  | .dir n _ => n

/-- Whether an entry is a plain file. -/
def FsEntry.isFile : FsEntry → Bool
  | .file _ _ _ _ _ => true
  | .dir _ _ => false

/-- JS `entry.name.startsWith(".")`. -/
def startsWithDot : Str → Bool
  | [] => false
  | c :: _ => c = '.'

/-- codespaceSync.js line 372. -/
def PROTECTED_FILES : List Str :=
  ["sync_server.py".data, "metadatafarmer.py".data, "CLAUDE.md".data]

/-- codespaceSync.js line 373. -/
def PROTECTED_DIRS : List Str := ["meta_data".data]

/-- codespaceSync.js line 338: the skip condition of `collectFilesRecursive`
(applied to every entry, files and directories alike):
`entry.name.startsWith(".") || entry.name === "node_modules" ||
protectedDirs.includes(entry.name)`. -/
def skipName (protectedDirs : List Str) (n : Str) : Bool :=
  startsWithDot n || n = "node_modules".data || protectedDirs.contains n

/-- A file collected for pushing: its joined-later path and its content. -/
structure PushFile where
  path : Path
  content : Str
deriving DecidableEq

mutual
/-- Body of `collectFilesRecursive` for one non-skipped entry: files are
dropped when protected or sync-blocked, directories are recursed into. -/
def collectEntry (e : FsEntry) (pre : Path) (protF protD : List Str) :
    List PushFile :=
  match e with
  | .file n _ content _ _ =>
    if protF.contains n then []
    else if shouldBlockSync n then []
    else [⟨pre ++ [n], content⟩]
  | .dir n cs => collectFilesRecursive cs (pre ++ [n]) protF protD

/-- codespaceSync.js `collectFilesRecursive`: walk a directory listing,
skipping hidden/`node_modules`/protected-dir names, protected filenames and
sync-blocked filenames, collecting `(path, content)` pairs. -/
def collectFilesRecursive (es : List FsEntry) (pre : Path)
    (protF protD : List Str) : List PushFile :=
  match es with
  | [] => []
  | e :: rest =>
    (if skipName protD e.name then [] else collectEntry e pre protF protD)
      ++ collectFilesRecursive rest pre protF protD
end

/-- Join path components with "/" (the string the JS code actually holds). -/
def joinPath : Path → Str
  | [] => []
  | [c] => c
  | c :: cs => c ++ '/' :: joinPath cs

/-- The upload loop of `pushScriptsToCodespace`.  `net p = false` models a
non-ok HTTP response for path `p` (so `uploadScript` throws).  Returns the
result (`.error` models the rethrown exception, which discards the
accumulated `pushedFiles` list) together with the trace of `put_file`
(POST `/scripts/:path`) calls actually attempted.  `uploadScript` first
re-checks `shouldBlockSync` on the slash-joined path and throws without
calling the network when it is blocked. -/
def pushLoop (net : Str → Bool) :
    List PushFile → Except Unit (List Path) × List Path
  | [] => (.ok [], [])
  | f :: rest =>
    if shouldBlockSync (joinPath f.path) then (.error (), [])
    else if net (joinPath f.path) then
      let r := pushLoop net rest
      (r.1.map (fun l => f.path :: l), f.path :: r.2)
    else (.error (), [f.path])

/-- codespaceSync.js `pushScriptsToCodespace`, applied to the children of
the local `app_folder`: collect all files (excluding protected ones) and
upload each in order, aborting on the first failure. -/
def pushScriptsToCodespace (appChildren : List FsEntry) (net : Str → Bool) :
    Except Unit (List Path) × List Path :=
  pushLoop net
    (collectFilesRecursive appChildren [] PROTECTED_FILES PROTECTED_DIRS)

/-- Membership of a file in an entry forest: `TreeFileAt es p f` holds when
descending from `es` along the directory components of `p` reaches the
file entry `f` (whose name is the last component of `p`). -/
inductive TreeFileAt : List FsEntry → Path → FsEntry → Prop where
  | here {es : List FsEntry} {n : Str} {sz : Option Nat} {c : Str}
      {lm : Option Int} {d : Bool} :
      FsEntry.file n sz c lm d ∈ es →
      TreeFileAt es [n] (.file n sz c lm d)
  | there {es : List FsEntry} {dn : Str} {cs : List FsEntry} {p : Path}
      {f : FsEntry} :
      FsEntry.dir dn cs ∈ es → TreeFileAt cs p f →
      TreeFileAt es (dn :: p) f

mutual
/-- Well-formedness of a forest: sibling names are distinct at every level
(true of any real directory). -/
def wfEntry : FsEntry → Bool
  | .file _ _ _ _ _ => true
  | .dir _ cs => wfList cs && decide ((cs.map FsEntry.name).Nodup)

/-- All entries of a list are well-formed. -/
def wfList : List FsEntry → Bool
  | [] => true
  | e :: rest => wfEntry e && wfList rest
end

/-- Well-formedness of a directory listing: distinct sibling names here and
recursively below. -/
def wfChildren (es : List FsEntry) : Bool :=
  wfList es && decide ((es.map FsEntry.name).Nodup)

/-! ## Pull (`syncScriptsToLocal`) -/

/-- One entry of the remote `GET /scripts` listing: a slash-joined relative
path and a (float) unix modification time. -/
structure RemoteScript where
  path : Str
  modified : ℚ

/-- The Sync Vector: per remote path, the last-seen remote modtime
(`lastSync` in the source). -/
abbrev Vec := Str → Option ℚ

/-- `newLastSync[filePath] = m` (an object-key update). -/
def vecUpdate (v : Vec) (p : Str) (m : ℚ) : Vec :=
  fun r => if r = p then some m else v r

/-- Outcome of a pull: the result the caller receives (`.error` models the
exception rethrown by `syncScriptsToLocal`, which discards `newLastSync`
and `syncedFiles`), the trace of local writes `(path, content)`, and the
trace of `getScript` fetch calls. -/
structure PullOut where
  result : Except Unit (Vec × List Str)
  writes : List (Str × Str)
  calls : List Str

/-- Prepend a successfully downloaded file to a pull outcome. -/
def pullCons (p content : Str) (res : PullOut) : PullOut :=
  ⟨res.result.map (fun r => (r.1, p :: r.2)), (p, content) :: res.writes,
    p :: res.calls⟩

/-- The per-entry loop of `syncScriptsToLocal`.  For each remote entry:
`lastMod = lastSync[filePath]` is read from the FROZEN input map
(codespaceSync.js line 220) while updates go to the copy `newLastSync`
(threaded here as `v`); `serverMod = Math.floor(script.modified)`;
download when `!lastMod || Math.floor(lastMod) < serverMod` (note that
`lastMod = 0` is falsy in JS) and store `serverMod`, otherwise write the
frozen value back (`newLastSync[filePath] = lastMod`).  A failing fetch
throws, aborting the loop.  There is no forbidden-in-app filtering of
incoming paths. -/
def pullLoop (lastSync : Vec) (fetch : Str → Option Str) :
    List RemoteScript → Vec → PullOut
  | [], v => ⟨.ok (v, []), [], []⟩
  | s :: rest, v =>
    let serverMod : Int := Rat.floor s.modified
    match lastSync s.path with
    | none =>
      (match fetch s.path with
       | none => ⟨.error (), [], [s.path]⟩
       | some content =>
         pullCons s.path content
           (pullLoop lastSync fetch rest
             (vecUpdate v s.path (serverMod : ℚ))))
    | some m =>
      if m = 0 ∨ Rat.floor m < serverMod then
        (match fetch s.path with
         | none => ⟨.error (), [], [s.path]⟩
         | some content =>
           pullCons s.path content
             (pullLoop lastSync fetch rest
               (vecUpdate v s.path (serverMod : ℚ))))
      else pullLoop lastSync fetch rest (vecUpdate v s.path m)

/-- codespaceSync.js `syncScriptsToLocal`: run the pull loop over the
remote listing; `newLastSync = { ...lastSync }` starts as a copy of the
caller-supplied vector, which is also the frozen map the loop reads. -/
def syncScriptsToLocal (scripts : List RemoteScript)
    (fetch : Str → Option Str) (lastSync : Vec) : PullOut :=
  pullLoop lastSync fetch scripts lastSync

/-- Result object of `runFullSync`. -/
structure FullSyncResult where
  scriptsSync : Option (Vec × List Str)
  metadataSync : Bool
  error : Bool

/-- codespaceSync.js `runFullSync`: pull, then metadata sync; a thrown sync
error is caught, recorded in `error`, and leaves `scriptsSync` null. -/
def runFullSync (scripts : List RemoteScript) (fetch : Str → Option Str)
    (lastSync : Vec) (metaOk : Bool) : FullSyncResult :=
  match (syncScriptsToLocal scripts fetch lastSync).result with
  | .ok r => ⟨some r, metaOk, false⟩
  | .error _ => ⟨none, false, true⟩

/-- One pull request against the remote: a listing and a fetch oracle. -/
structure PullRequest where
  scripts : List RemoteScript
  fetch : Str → Option Str

/-- The vector kept by the caller across sync calls: it is replaced by the
pull result on success and kept unchanged when the pull throws
(`result.scripts_sync?.last_sync || lastSyncRef.current` in the UI). -/
def applyPull (v : Vec) (req : PullRequest) : Vec :=
  match (syncScriptsToLocal req.scripts req.fetch v).result with
  | .ok r => r.1
  | .error _ => v

/-- The vector after a sequence of pulls. -/
def applyPulls (v : Vec) (reqs : List PullRequest) : Vec :=
  reqs.foldl applyPull v

/-- Caller-side session state threaded through sync operations.  Only the
Sync Vector lives here. -/
structure SessionState where
  lastSync : Vec

/-- A push operation as seen from the session: `pushScriptsToCodespace`
takes no vector argument at all, so the state passes through untouched and
the outcome is computed from the local tree and the network alone. -/
def apiPush (st : SessionState) (appChildren : List FsEntry)
    (net : Str → Bool) :
    SessionState × (Except Unit (List Path) × List Path) :=
  (st, pushScriptsToCodespace appChildren net)

/-! ## Tree scan (`buildFileTreeFromHandle`) -/

/-- fileSystem.js line 218. -/
def SKIP_FOLDERS : List Str :=
  ["node_modules".data, ".git".data, "__pycache__".data, ".next".data,
   "dist".data, "build".data, ".cache".data]

/-- The filtering loop of `buildFileTreeFromHandle`: directories in
`SKIP_FOLDERS` are dropped; inside `app_folder`, files flagged by
`shouldDeleteFile` are dropped (and reported deleted). -/
def keepEntry (isApp : Bool) : FsEntry → Bool
  | .dir n _ => ¬ SKIP_FOLDERS.contains n
  | .file n sz _ _ _ => ¬ (isApp && shouldDeleteFile n sz)

/-- Names pushed onto `deletedFiles` while filtering one directory level:
every file flagged by `shouldDeleteFile` is reported, whether or not the
`removeEntry` call succeeds (the catch branch pushes the name too). -/
def levelDeleted (isApp : Bool) (es : List FsEntry) : List Str :=
  es.filterMap fun e =>
    match e with
    | .file n sz _ _ _ =>
      if isApp && shouldDeleteFile n sz then some n else none
    | .dir _ _ => none

/-- A node of the returned tree snapshot. -/
inductive TreeNode : Type where
  | mk (name : Str) (path : Path) (isDirectory : Bool)
      (extension : Option Str) (lastModified : Option Int)
      (children : List TreeNode)

/-- Node name. -/
def TreeNode.name : TreeNode → Str
  | .mk n _ _ _ _ _ => n

/-- Node path. -/
def TreeNode.path : TreeNode → Path
  | .mk _ p _ _ _ _ => p

/-- Whether the node is a directory. -/
def TreeNode.isDirectory : TreeNode → Bool
  | .mk _ _ d _ _ _ => d

/-- Node children. -/
def TreeNode.children : TreeNode → List TreeNode
  | .mk _ _ _ _ _ cs => cs

/-- Code-point comparison of lowercased names, modelling
`a.name.toLowerCase().localeCompare(b.name.toLowerCase()) <= 0`. -/
def strLe : Str → Str → Bool
  | [], _ => true
  | _ :: _, [] => false
  | a :: as, b :: bs => if a = b then strLe as bs else decide (a < b)

/-- The entry comparator of `buildFileTreeFromHandle`: directories first,
then case-insensitive name order. -/
def entryLe (a b : FsEntry) : Bool :=
  if a.isFile = b.isFile then
    strLe (a.name.map Char.toLower) (b.name.map Char.toLower)
  else b.isFile

/-- Insert into a sorted list (stable insertion sort step). -/
def insertLe {α : Type} (le : α → α → Bool) (x : α) : List α → List α
  | [] => [x]
  | y :: ys => if le x y then x :: y :: ys else y :: insertLe le x ys

/-- Stable insertion sort by a boolean comparator, modelling the stable
`Array.prototype.sort`. -/
def insertionSortBy {α : Type} (le : α → α → Bool) : List α → List α
  | [] => []
  | x :: xs => insertLe le x (insertionSortBy le xs)

theorem mem_insertLe {α : Type} {le : α → α → Bool} {x a : α} :
    ∀ {l : List α}, a ∈ insertLe le x l ↔ a = x ∨ a ∈ l
  | [] => by simp [insertLe]
  | y :: ys => by
    simp only [insertLe]
    by_cases h : le x y = true
    · simp [h, List.mem_cons, or_assoc]
    · simp only [h, if_neg, Bool.false_eq_true, not_false_iff, List.mem_cons,
        mem_insertLe (l := ys)]
      tauto

theorem mem_insertionSortBy {α : Type} {le : α → α → Bool} {a : α} :
    ∀ {l : List α}, a ∈ insertionSortBy le l ↔ a ∈ l
  | [] => Iff.rfl
  | x :: xs => by
    simp [insertionSortBy, mem_insertLe, mem_insertionSortBy (l := xs)]

mutual
/-- fileSystem.js `buildFileTreeFromHandle` on a single entry: files
become leaf nodes (with a `lastModified` of `none` when `getFile` fails);
directories are scanned recursively, entering app mode when the directory
is named `app_folder`. -/
def scanEntry (e : FsEntry) (curPath : Path) (isApp : Bool) :
    TreeNode × List Str :=
  match e with
  | .file n _ _ lm _ =>
    (.mk n (curPath ++ [n]) false (some (extOf n)) lm [], [])
  | .dir n cs =>
    let r := scanChildren cs (curPath ++ [n]) (isApp || n = "app_folder".data)
    (.mk n (curPath ++ [n]) true none none r.1, r.2)
termination_by sizeOf e
decreasing_by
  simp only [FsEntry.dir.sizeOf_spec]
  omega

/-- One directory level of `buildFileTreeFromHandle`: filter (deleting
forbidden files inside the app subtree), sort (directories first, then
case-insensitive name), then scan the survivors in sorted order.  Returns
the child nodes and the accumulated `deletedFiles` names. -/
def scanChildren (es : List FsEntry) (curPath : Path) (isApp : Bool) :
    List TreeNode × List Str :=
  let sorted := insertionSortBy entryLe (es.filter (keepEntry isApp))
  let results := sorted.attach.map fun x => scanEntry x.1 curPath isApp
  (results.map Prod.fst,
    levelDeleted isApp es ++ (results.map Prod.snd).flatten)
termination_by sizeOf es
decreasing_by
  have h2 : x.1 ∈ es.filter (keepEntry isApp) := mem_insertionSortBy.mp x.2
  have h3 : x.1 ∈ es := (List.mem_filter.mp h2).1
  exact List.sizeOf_lt_of_mem h3
end

/-- fileSystem.js `buildFileTreeFromHandle` applied to the project root
directory handle (initial `path = ""` and `isAppFolder = false`): the
root level is scanned with the app flag off — `app_folder` detection
applies when recursing into child directories, not to the root name. -/
def buildFileTreeFromHandle (root : FsEntry) : TreeNode × List Str :=
  match root with
  | .dir n cs =>
    let r := scanChildren cs [n] false
    (.mk n [n] true none none r.1, r.2)
  | .file n _ _ lm _ =>
    (.mk n [n] false (some (extOf n)) lm [], [])

/-- All file-node paths in a list of tree nodes. -/
def filePathsList : List TreeNode → List Path
  | [] => []
  | .mk _ p false _ _ _ :: rest => p :: filePathsList rest
  | .mk _ _ true _ _ cs :: rest => filePathsList cs ++ filePathsList rest

/-- Membership of a file in the scanned forest, tracking the
`isAppFolder` flag exactly as the scanner computes it: `AppFileAt es isApp
p f` holds when descending from `es` (whose own flag is `isApp`) along
non-skipped directories reaches file `f`, and the flag at the level of `f`
is true. -/
inductive AppFileAt : List FsEntry → Bool → Path → FsEntry → Prop where
  | here {es : List FsEntry} {isApp : Bool} {n : Str} {sz : Option Nat}
      {c : Str} {lm : Option Int} {d : Bool} :
      isApp = true → FsEntry.file n sz c lm d ∈ es →
      AppFileAt es isApp [n] (.file n sz c lm d)
  | there {es : List FsEntry} {isApp : Bool} {dn : Str}
      {cs : List FsEntry} {p : Path} {f : FsEntry} :
      FsEntry.dir dn cs ∈ es → SKIP_FOLDERS.contains dn = false →
      AppFileAt cs (isApp || dn = "app_folder".data) p f →
      AppFileAt es isApp (dn :: p) f

/-- Membership of a file among the entries that SURVIVE the scan filter:
like `AppFileAt`, but instead of requiring the app flag at the file, it
requires that the filter keeps the file (`isApp && shouldDeleteFile`
false). -/
inductive ScannedFileAt : List FsEntry → Bool → Path → FsEntry → Prop where
  | here {es : List FsEntry} {isApp : Bool} {n : Str} {sz : Option Nat}
      {c : Str} {lm : Option Int} {d : Bool} :
      FsEntry.file n sz c lm d ∈ es →
      (isApp && shouldDeleteFile n sz) = false →
      ScannedFileAt es isApp [n] (.file n sz c lm d)
  | there {es : List FsEntry} {isApp : Bool} {dn : Str}
      {cs : List FsEntry} {p : Path} {f : FsEntry} :
      FsEntry.dir dn cs ∈ es → SKIP_FOLDERS.contains dn = false →
      ScannedFileAt cs (isApp || dn = "app_folder".data) p f →
      ScannedFileAt es isApp (dn :: p) f

/-- Whether a filesystem entry is a file the app-folder policy deletes. -/
def fileForbidden : FsEntry → Bool
  | .file n sz _ _ _ => shouldDeleteFile n sz
  | .dir _ _ => false

/-! ## Script queue (ScriptRunner.jsx `queueScripts` / `processQueue`)

The queue lives in `scriptQueueRef` and the drain loop is guarded by
`isRunningRef`.  JavaScript is single threaded: code between `await`
points runs atomically, and the only `await` is the run of one script.
The machine below therefore has two events: `submit ps` (a call to
`queueScripts`, which enqueues and then calls `processQueue`) and
`finish` (the awaited `runSingleScript` returns and the drain loop
continues).  Queue items are tagged with a global sequence number
recording enqueue order; `started` is the log of runs in start order and
`running` the multiset of currently executing scripts. -/

/-- State of the script-runner queue machinery. -/
structure QState where
  queue : List (Nat × Str)
  running : List (Nat × Str)
  isRunning : Bool
  started : List (Nat × Str)
  nextSeq : Nat

/-- External events of the queue machine. -/
inductive QEvent : Type where
  | submit (ps : List Str)
  | finish

/-- One iteration of the enqueue loop of `queueScripts`: a path already in
the queue is not enqueued a second time. -/
def enqueueOne (s : QState) (p : Str) : QState :=
  if p ∈ s.queue.map Prod.snd then s
  else
    { s with queue := s.queue ++ [(s.nextSeq, p)], nextSeq := s.nextSeq + 1 }

/-- The enqueue loop of `queueScripts`. -/
def enqueue (s : QState) (ps : List Str) : QState :=
  ps.foldl enqueueOne s

/-- `processQueue` up to its first `await`: return immediately when a
drain loop is already running or the queue is empty; otherwise mark
running, shift the queue head and start it. -/
def kick (s : QState) : QState :=
  if s.isRunning then s
  else
    match s.queue with
    | [] => s
    | h :: rest =>
      { queue := rest, running := [h], isRunning := true,
        started := s.started ++ [h], nextSeq := s.nextSeq }

/-- The drain loop resuming after its awaited run finishes: shift and
start the next script if any, otherwise clear the running flag. -/
def finishStep (s : QState) : QState :=
  match s.running with
  | [] => s
  | _ :: rs =>
    match s.queue with
    | h :: rest =>
      { queue := rest, running := rs ++ [h], isRunning := s.isRunning,
        started := s.started ++ [h], nextSeq := s.nextSeq }
    | [] =>
      { queue := [], running := rs, isRunning := false,
        started := s.started, nextSeq := s.nextSeq }

/-- `queueScripts` is enqueue followed by `processQueue`. -/
def qstep (s : QState) : QEvent → QState
  | .submit ps => kick (enqueue s ps)
  | .finish => finishStep s

/-- Initial queue state. -/
def initQ : QState := ⟨[], [], false, [], 0⟩

/-- The state after a trace of events. -/
def runQ (tr : List QEvent) : QState :=
  tr.foldl qstep initQ

/-! ## Missing-module detection (ScriptRunner.jsx `detectMissingModule`) -/

/-- The two quote characters of the regex character class. -/
def quoteChars : List Char := [squote, dquote]

/-- The literal part of the regex
`ModuleNotFoundError: No module named ...`. -/
def MODULE_LIT : Str := "ModuleNotFoundError: No module named ".data

/-- After the capture run, the regex requires a closing quote and a
nonempty capture. -/
def closeQuote (cap : Str) : Str → Option Str
  | c :: _ => if c ∈ quoteChars ∧ cap ≠ [] then some cap else none
  | [] => none

/-- After the literal: an opening quote, then the maximal run of
non-quote characters (the capture `[^'"]+`), then the closing quote. -/
def tryHereTail : Str → Option Str
  | [] => none
  | q :: rest =>
    if q ∈ quoteChars then
      closeQuote (rest.takeWhile fun c => ¬ c ∈ quoteChars)
        (rest.drop (rest.takeWhile fun c => ¬ c ∈ quoteChars).length)
    else none

/-- Try to match the regex at the start of `s`: the literal, an opening
quote, a nonempty run of non-quote characters (the capture), and a
closing quote. -/
def tryHere (s : Str) : Option Str :=
  if MODULE_LIT.isPrefixOf s then tryHereTail (s.drop MODULE_LIT.length)
  else none

/-- Leftmost regex match over the whole string (`String.prototype.match`
with an unanchored pattern): try every start position left to right. -/
def findCapture : Str → Option Str
  | [] => none
  | c :: rest =>
    match tryHere (c :: rest) with
    | some r => some r
    | none => findCapture rest

/-- The alias table mapping module names to pip package names; any other
name maps to itself (`moduleMap[moduleName] || moduleName`). -/
def moduleMap (m : Str) : Str :=
  if m = "PIL".data then "pillow".data
  else if m = "cv2".data then "opencv-python".data
  else if m = "sklearn".data then "scikit-learn".data
  else if m = "yaml".data then "pyyaml".data
  else m

/-- ScriptRunner.jsx `detectMissingModule`: find the regex capture, reduce
a submodule to its top-level component (`match[1].split(".")[0]`), and map
it through the alias table. -/
def detectMissingModule (stderr : Str) : Option Str :=
  (findCapture stderr).map fun m =>
    moduleMap (m.takeWhile fun c => c ≠ '.')

/-- The diagnostic pattern of the source regex, as a proposition: the
string contains the literal followed by a quoted nonempty run of
non-quote characters. -/
def HasModulePattern (stderr : Str) : Prop :=
  ∃ a q X qq b, stderr = a ++ MODULE_LIT ++ q :: (X ++ qq :: b) ∧
    q ∈ quoteChars ∧ qq ∈ quoteChars ∧ X ≠ [] ∧ ∀ c ∈ X, c ∉ quoteChars

/-! ## Derived notions and concrete instances used by the claims -/

/-- The empty Sync Vector (`lastSync = {}`). -/
def emptyVec : Vec := fun _ => none

/-- A vector is stable for a listing when every entry already has a
truthy vector value whose floor is not older than the remote floor — the
exact condition under which the pull loop skips the entry. -/
def PullStable (scripts : List RemoteScript) (v : Vec) : Prop :=
  ∀ s ∈ scripts, ∃ m, v s.path = some m ∧ m ≠ 0 ∧
    ¬ (Rat.floor m < Rat.floor s.modified)

/-- The tree of the C3 counterexample: a single file `sync_server.txt`
under the app folder. -/
def c3Tree : List FsEntry :=
  [.file "sync_server.txt".data (some 2) "x".data none true]

/-- The tree of the C3 amended witness: `scripts/x.py` together with a
protected `sync_server.py` (scenario S3). -/
def c3wTree : List FsEntry :=
  [.dir "scripts".data [.file "x.py".data (some 5) "print(1)".data none
    true],
   .file "sync_server.py".data (some 9) "srv".data none true]

/-- Remote listing of the C1 counterexample: a forbidden-in-app
`data.csv`. -/
def c1Scripts : List RemoteScript := [⟨"data.csv".data, 2⟩]

/-- Fetch oracle of the C1 counterexample: every fetch succeeds. -/
def c1Fetch : Str → Option Str := fun _ => some "1,2".data

/-- Remote listing of the C6 counterexample. -/
def c6Scripts : List RemoteScript :=
  [⟨"a.py".data, 2⟩, ⟨"b.py".data, 2⟩]

/-- Fetch oracle of the C6 counterexample: `a.py` succeeds, `b.py`
fails. -/
def c6Fetch : Str → Option Str :=
  fun p => if p = "a.py".data then some "x".data else none

/-- Local tree of the C6 push counterexample. -/
def c6pTree : List FsEntry :=
  [.file "a.py".data (some 1) "pa".data none true,
   .file "b.py".data (some 1) "pb".data none true]

/-- Network oracle of the C6 push counterexample: uploading `a.py`
succeeds, `b.py` fails. -/
def c6pNet : Str → Bool := fun s => s = "a.py".data

/-- Remote listing of the C7 witness (scenario S2 shape). -/
def c7Scripts : List RemoteScript := [⟨"a/b.py".data, 2⟩]

/-- Fetch oracle of the C7 witness. -/
def c7Fetch : Str → Option Str := fun _ => some "x".data

/-- Remote listing of the C7 counterexample: the same path listed twice,
newest first, both with integer-second floors of at least 1. -/
def c7dScripts : List RemoteScript :=
  [⟨"p.py".data, 9⟩, ⟨"p.py".data, 5⟩]

/-- Fetch oracle of the C7 counterexample: every fetch succeeds. -/
def c7dFetch : Str → Option Str := fun _ => some "x".data

/-! ## Lemmas: extensions and joined paths -/

theorem afterLastDot_of_not_mem {ys : Str} (h : ('.' : Char) ∉ ys) :
    afterLastDot ys = ys := by
  cases ys with
  | nil => rfl
  | cons c rest =>
    have hr : ('.' : Char) ∉ rest := fun hm => h (List.mem_cons_of_mem _ hm)
    have hc : ¬ c = '.' := fun hc => h (by rw [hc]; exact List.mem_cons_self _ _)
    simp [afterLastDot, hr, hc]

theorem afterLastDot_append_of_mem {ys : Str} (xs : Str)
    (h : ('.' : Char) ∈ ys) :
    afterLastDot (xs ++ ys) = afterLastDot ys := by
  induction xs with
  | nil => rfl
  | cons c rest ih =>
    have hm : ('.' : Char) ∈ rest ++ ys := List.mem_append_right rest h
    simp [List.cons_append, afterLastDot, hm, ih]

theorem afterLastDot_append_of_not_mem {ys : Str} (xs : Str)
    (h : ('.' : Char) ∉ ys) :
    afterLastDot (xs ++ ys) = afterLastDot xs ++ ys := by
  induction xs with
  | nil => simp [afterLastDot_of_not_mem h, afterLastDot]
  | cons c rest ih =>
    by_cases hr : ('.' : Char) ∈ rest
    · have hm : ('.' : Char) ∈ rest ++ ys := List.mem_append_left _ hr
      simp [List.cons_append, afterLastDot, hm, hr, ih]
    · have hm : ('.' : Char) ∉ rest ++ ys := by
        intro hmem
        rcases List.mem_append.mp hmem with h1 | h1
        · exact hr h1
        · exact h h1
      by_cases hc : c = '.'
      · simp [List.cons_append, afterLastDot, hm, hr, hc]
      · simp [List.cons_append, afterLastDot, hm, hr, hc]

theorem joinPath_append_single {pre : Path} (hpre : pre ≠ []) (n : Str) :
    joinPath (pre ++ [n]) = joinPath pre ++ '/' :: n := by
  induction pre with
  | nil => exact absurd rfl hpre
  | cons c pre2 ih =>
    cases pre2 with
    | nil => rfl
    | cons c2 pre3 =>
      have h2 : joinPath ((c2 :: pre3) ++ [n]) =
          joinPath (c2 :: pre3) ++ '/' :: n := ih (by simp)
      show c ++ '/' :: joinPath ((c2 :: pre3) ++ [n]) = _
      rw [h2]
      simp [joinPath, List.append_assoc]

theorem shouldBlockSync_joinPath {n : Str} (pre : Path)
    (h : shouldBlockSync n = false) :
    shouldBlockSync (joinPath (pre ++ [n])) = false := by
  cases pre with
  | nil => simpa [joinPath] using h
  | cons c pre2 =>
    rw [joinPath_append_single (by simp) n]
    by_cases hd : ('.' : Char) ∈ n
    · have hm : ('.' : Char) ∈ '/' :: n := List.mem_cons_of_mem _ hd
      have h1 : afterLastDot (joinPath (c :: pre2) ++ '/' :: n) =
          afterLastDot ('/' :: n) := afterLastDot_append_of_mem _ hm
      have h2 : afterLastDot ('/' :: n) = afterLastDot n := by
        simp [afterLastDot, hd]
      unfold shouldBlockSync extOf at h ⊢
      rw [h1, h2]
      exact h
    · have hm : ('.' : Char) ∉ '/' :: n := by
        intro hmem
        rcases List.mem_cons.mp hmem with h1 | h1
        · exact absurd h1.symm (by decide)
        · exact hd h1
      have h1 : afterLastDot (joinPath (c :: pre2) ++ '/' :: n) =
          afterLastDot (joinPath (c :: pre2)) ++ '/' :: n :=
        afterLastDot_append_of_not_mem _ hm
      unfold shouldBlockSync extOf
      rw [h1]
      by_contra hcon
      have hmem : ('.' ::
          ((afterLastDot (joinPath (c :: pre2)) ++ '/' :: n).map Char.toLower))
          ∈ FORBIDDEN_SYNC_EXTENSIONS := by
        have := Bool.of_not_eq_false hcon
        simpa using this
      have hslash : ('/' : Char) ∈ ('.' ::
          ((afterLastDot (joinPath (c :: pre2)) ++ '/' :: n).map
            Char.toLower)) := by
        apply List.mem_cons_of_mem
        refine List.mem_map.mpr ⟨'/', ?_, by decide⟩
        exact List.mem_append_right _ (List.mem_cons_self _ _)
      have hno : ∀ e ∈ FORBIDDEN_SYNC_EXTENSIONS, ('/' : Char) ∉ e := by
        decide
      exact hno _ hmem hslash

/-! ## Lemmas: the push loop -/

theorem pushLoop_calls_subset (net : Str → Bool) :
    ∀ fs, ∀ p ∈ (pushLoop net fs).2, p ∈ fs.map PushFile.path := by
  intro fs
  induction fs with
  | nil => intro p h; simp [pushLoop] at h
  | cons f rest ih =>
    intro p h
    simp only [pushLoop] at h
    split at h
    · simp at h
    · split at h
      · rcases List.mem_cons.mp h with h1 | h1
        · simp [h1]
        · exact List.mem_cons_of_mem _ (ih p h1)
      · simp at h
        simp [h]

theorem pushLoop_ok_subset (net : Str → Bool) :
    ∀ fs l, (pushLoop net fs).1 = .ok l → ∀ p ∈ l, p ∈ fs.map PushFile.path := by
  intro fs
  induction fs with
  | nil =>
    intro l hl p hp
    simp only [pushLoop] at hl
    cases hl
    simp at hp
  | cons f rest ih =>
    intro l hl p hp
    simp only [pushLoop] at hl
    split at hl
    · cases hl
    · split at hl
      · cases hok : (pushLoop net rest).1 with
        | error e => rw [hok] at hl; cases hl
        | ok l2 =>
          rw [hok] at hl
          cases hl
          rcases List.mem_cons.mp hp with h1 | h1
          · simp [h1]
          · exact List.mem_cons_of_mem _ (ih l2 hok p h1)
      · cases hl

theorem pushLoop_success (net : Str → Bool) :
    ∀ fs, (∀ f ∈ fs, shouldBlockSync (joinPath f.path) = false ∧
        net (joinPath f.path) = true) →
      pushLoop net fs = (.ok (fs.map PushFile.path), fs.map PushFile.path) := by
  intro fs
  induction fs with
  | nil => intro _; rfl
  | cons f rest ih =>
    intro h
    have hf := h f (List.mem_cons_self _ _)
    have hrest := ih fun g hg => h g (List.mem_cons_of_mem _ hg)
    simp only [pushLoop, hf.1, hf.2, hrest]
    simp [Except.map]

theorem pushLoop_abort (net : Str → Bool) :
    ∀ fs1 f fs2,
      (∀ g ∈ fs1, shouldBlockSync (joinPath g.path) = false ∧
        net (joinPath g.path) = true) →
      shouldBlockSync (joinPath f.path) = false →
      net (joinPath f.path) = false →
      pushLoop net (fs1 ++ f :: fs2) =
        (.error (), fs1.map PushFile.path ++ [f.path]) := by
  intro fs1
  induction fs1 with
  | nil =>
    intro f fs2 _ hb hn
    simp only [List.nil_append, pushLoop, hb, hn]
    simp
  | cons g rest ih =>
    intro f fs2 h hb hn
    have hg := h g (List.mem_cons_self _ _)
    have hrest := ih f fs2 (fun x hx => h x (List.mem_cons_of_mem _ hx)) hb hn
    simp only [List.cons_append, pushLoop, hg.1, hg.2, List.append_eq]
    rw [hrest]
    simp [Except.map]

/-! ## Lemmas: tree membership and well-formedness -/

theorem TreeFileAt.path_ne_nil {es : List FsEntry} {p : Path} {f : FsEntry}
    (h : TreeFileAt es p f) : p ≠ [] := by
  cases h <;> simp

theorem treeFileAt_cons {es : List FsEntry} {p : Path} {f e : FsEntry}
    (h : TreeFileAt es p f) : TreeFileAt (e :: es) p f := by
  cases h with
  | here hm => exact .here (List.mem_cons_of_mem _ hm)
  | there hm hsub => exact .there (List.mem_cons_of_mem _ hm) hsub

theorem wfList_mem {es : List FsEntry} {e : FsEntry}
    (h : wfList es = true) (hm : e ∈ es) : wfEntry e = true := by
  induction es with
  | nil => cases hm
  | cons a rest ih =>
    rw [wfList, Bool.and_eq_true] at h
    rcases List.mem_cons.mp hm with h1 | h1
    · rw [h1]; exact h.1
    · exact ih h.2 h1

theorem wfChildren_nodup {es : List FsEntry} (h : wfChildren es = true) :
    (es.map FsEntry.name).Nodup := by
  rw [wfChildren, Bool.and_eq_true] at h
  exact of_decide_eq_true h.2

theorem wfChildren_dir {es : List FsEntry} {dn : Str} {cs : List FsEntry}
    (h : wfChildren es = true) (hm : FsEntry.dir dn cs ∈ es) :
    wfChildren cs = true := by
  rw [wfChildren, Bool.and_eq_true] at h
  have := wfList_mem h.1 hm
  rw [wfEntry] at this
  rw [wfChildren]
  exact this

theorem name_injective {es : List FsEntry} {e1 e2 : FsEntry}
    (h : wfChildren es = true) (h1 : e1 ∈ es) (h2 : e2 ∈ es)
    (hn : FsEntry.name e1 = FsEntry.name e2) : e1 = e2 :=
  List.inj_on_of_nodup_map (wfChildren_nodup h) h1 h2 hn

theorem treeFileAt_unique {es : List FsEntry} {p : Path} {f g : FsEntry}
    (hwf : wfChildren es = true) (h1 : TreeFileAt es p f)
    (h2 : TreeFileAt es p g) : f = g := by
  induction h1 generalizing g with
  | here hm =>
    cases h2 with
    | here hm2 => exact name_injective hwf hm hm2 rfl
    | there hm2 hsub => exact absurd rfl hsub.path_ne_nil
  | there hm hsub ih =>
    cases h2 with
    | here hm2 => exact absurd rfl hsub.path_ne_nil
    | there hm2 hsub2 =>
      have hd := name_injective hwf hm hm2 rfl
      cases hd
      exact ih (wfChildren_dir hwf hm) hsub2

/-! ## Lemmas: inversion and completeness of `collectFilesRecursive` -/

theorem collect_inv_aux :
    ∀ (N : Nat) (es : List FsEntry), sizeOf es ≤ N →
      ∀ (pre : Path) (pf pd : List Str) (q : Path),
        q ∈ (collectFilesRecursive es pre pf pd).map PushFile.path →
        ∃ dirs f, q = pre ++ (dirs ++ [FsEntry.name f]) ∧
          TreeFileAt es (dirs ++ [FsEntry.name f]) f ∧
          (∀ c ∈ dirs, skipName pd c = false) ∧
          skipName pd (FsEntry.name f) = false ∧
          pf.contains (FsEntry.name f) = false ∧
          shouldBlockSync (FsEntry.name f) = false := by
  intro N
  induction N with
  | zero =>
    intro es hs
    exfalso
    cases es with
    | nil => simp at hs
    | cons e rest => simp at hs
  | succ n ih =>
    intro es hs pre pf pd q hq
    cases es with
    | nil => simp [collectFilesRecursive] at hq
    | cons e rest =>
      have hsr : sizeOf rest ≤ n := by
        simp [List.cons.sizeOf_spec] at hs
        have : 1 ≤ sizeOf e := by
          cases e with
          | file fn sz c lm d => simp
          | dir dn cs => simp; omega
        omega
      rw [collectFilesRecursive, List.map_append, List.mem_append] at hq
      rcases hq with hq | hq
      · cases hskip : skipName pd (FsEntry.name e) with
        | true => rw [hskip] at hq; simp at hq
        | false =>
          rw [hskip] at hq
          simp only [Bool.false_eq_true, if_neg, if_false] at hq
          cases e with
          | file fn sz content lm d =>
            simp only [collectEntry] at hq
            split at hq
            · simp at hq
            · rename_i hprot
              split at hq
              · simp at hq
              · rename_i hblock
                have hprot2 : pf.contains fn = false := by
                  revert hprot; cases pf.contains fn <;> simp
                have hblock2 : shouldBlockSync fn = false := by
                  revert hblock; cases shouldBlockSync fn <;> simp
                have hq2 : q = pre ++ [fn] := by simpa using hq
                refine ⟨[], .file fn sz content lm d, by simpa using hq2,
                  .here (List.mem_cons_self _ _), by simp, ?_, ?_, ?_⟩
                · simpa [FsEntry.name] using hskip
                · simpa [FsEntry.name] using hprot2
                · simpa [FsEntry.name] using hblock2
          | dir dn cs =>
            have hcs : sizeOf cs ≤ n := by
              simp [List.cons.sizeOf_spec, FsEntry.dir.sizeOf_spec] at hs
              omega
            have hq2 : q ∈ (collectFilesRecursive cs (pre ++ [dn]) pf
                pd).map PushFile.path := by
              simpa [collectEntry] using hq
            rcases ih cs hcs (pre ++ [dn]) pf pd q hq2 with
              ⟨dirs2, f, h1, hAt, hdirs, hsk, hpr, hbl⟩
            refine ⟨dn :: dirs2, f, ?_, ?_, ?_, hsk, hpr, hbl⟩
            · rw [h1]; simp [List.append_assoc]
            · exact .there (List.mem_cons_self _ _) hAt
            · intro c hc
              rcases List.mem_cons.mp hc with h1 | h1
              · rw [h1]; simpa [FsEntry.name] using hskip
              · exact hdirs c h1
      · rcases ih rest hsr pre pf pd q hq with
          ⟨dirs, f, h1, hAt, hdirs, hsk, hpr, hbl⟩
        exact ⟨dirs, f, h1, treeFileAt_cons hAt, hdirs, hsk, hpr, hbl⟩

theorem collect_inv (es : List FsEntry) (pre : Path) (pf pd : List Str)
    (q : Path)
    (hq : q ∈ (collectFilesRecursive es pre pf pd).map PushFile.path) :
    ∃ dirs f, q = pre ++ (dirs ++ [FsEntry.name f]) ∧
      TreeFileAt es (dirs ++ [FsEntry.name f]) f ∧
      (∀ c ∈ dirs, skipName pd c = false) ∧
      skipName pd (FsEntry.name f) = false ∧
      pf.contains (FsEntry.name f) = false ∧
      shouldBlockSync (FsEntry.name f) = false :=
  collect_inv_aux (sizeOf es) es le_rfl pre pf pd q hq

theorem collectEntry_subset {e : FsEntry} {pd : List Str}
    (hs : skipName pd (FsEntry.name e) = false) :
    ∀ {es : List FsEntry}, e ∈ es → ∀ (pre : Path) (pf : List Str),
      ∀ x ∈ collectEntry e pre pf pd,
        x ∈ collectFilesRecursive es pre pf pd := by
  intro es
  induction es with
  | nil => intro hm; cases hm
  | cons a rest ih =>
    intro hm pre pf x hx
    rw [collectFilesRecursive, List.mem_append]
    rcases List.mem_cons.mp hm with h1 | h1
    · subst h1
      left
      rw [hs]
      simpa using hx
    · right
      exact ih h1 pre pf x hx

theorem collect_complete {es : List FsEntry} {p : Path} {f : FsEntry}
    {pf pd : List Str} (hAt : TreeFileAt es p f)
    (hp : ∀ c ∈ p, skipName pd c = false)
    (hprot : pf.contains (FsEntry.name f) = false)
    (hblock : shouldBlockSync (FsEntry.name f) = false) :
    ∀ pre, (pre ++ p) ∈ (collectFilesRecursive es pre pf pd).map
      PushFile.path := by
  induction hAt with
  | @here es2 n sz c lm d hm =>
    intro pre
    have hskip : skipName pd n = false := hp n (List.mem_cons_self _ _)
    have hx : (⟨pre ++ [n], c⟩ : PushFile) ∈
        collectEntry (.file n sz c lm d) pre pf pd := by
      simp only [FsEntry.name] at hprot hblock
      have hnotin : n ∉ pf := by simpa using hprot
      simp [collectEntry, hprot, hblock, hnotin]
    have h2 := collectEntry_subset (by simpa [FsEntry.name] using hskip)
      hm pre pf _ hx
    exact List.mem_map.mpr ⟨_, h2, rfl⟩
  | @there es2 dn cs p2 g hm hsub ih =>
    intro pre
    have hskip : skipName pd dn = false := hp dn (List.mem_cons_self _ _)
    have hrest := ih (fun c hc => hp c (List.mem_cons_of_mem _ hc)) hprot
      hblock (pre ++ [dn])
    rcases List.mem_map.mp hrest with ⟨x, hx, hxe⟩
    refine List.mem_map.mpr ⟨x, ?_, ?_⟩
    · refine collectEntry_subset (by simpa [FsEntry.name] using hskip)
        hm pre pf x ?_
      simpa [collectEntry] using hx
    · rw [hxe]; simp [List.append_assoc]

/-! ## Claim C2 -/

/-- C2: for every local file under the app subtree whose extension is
forbidden-for-sync (pdf, csv, xlsx, xls, xlsm, xlsb, ppt, pptx — i.e.
`shouldBlockSync` holds of its name), push never makes a `put_file` call
for it (it is absent from the trace of upload calls) and it does not
appear in the returned pushed-files list.  `wfChildren` only states that
sibling names are distinct, as on a real filesystem. -/
theorem push_never_uploads_forbidden_ext
    (es : List FsEntry) (net : Str → Bool) (p : Path) (f : FsEntry)
    (hwf : wfChildren es = true) (hAt : TreeFileAt es p f)
    (hblock : shouldBlockSync (FsEntry.name f) = true) :
    p ∉ (pushScriptsToCodespace es net).2 ∧
      ∀ l, (pushScriptsToCodespace es net).1 = .ok l → p ∉ l := by
  have key : p ∉ (collectFilesRecursive es [] PROTECTED_FILES
      PROTECTED_DIRS).map PushFile.path := by
    intro hp
    rcases collect_inv es [] _ _ p hp with ⟨dirs, g, hq, hAt2, _, _, _, hb2⟩
    rw [List.nil_append] at hq
    subst hq
    have hfg := treeFileAt_unique hwf hAt hAt2
    rw [hfg, hb2] at hblock
    cases hblock
  refine ⟨fun hp => key ?_, fun l hl hp => key ?_⟩
  · exact pushLoop_calls_subset net _ p hp
  · exact pushLoop_ok_subset net _ l hl p hp

/-- Witness for C2 at a concrete input: a `data.csv` directly under the
app folder is neither uploaded nor listed as pushed. -/
theorem push_never_uploads_forbidden_ext_witness :
    (["data.csv".data] : Path) ∉
      (pushScriptsToCodespace
        [FsEntry.file "data.csv".data (some 3) "1,2".data none true]
        (fun _ => true)).2 ∧
    ∀ l, (pushScriptsToCodespace
        [FsEntry.file "data.csv".data (some 3) "1,2".data none true]
        (fun _ => true)).1 = .ok l → ["data.csv".data] ∉ l :=
  push_never_uploads_forbidden_ext _ _ _
    (FsEntry.file "data.csv".data (some 3) "1,2".data none true)
    (by decide) (TreeFileAt.here (List.mem_cons_self _ _)) (by decide)

/-! ## Claim C3 -/

/-- C3 counterexample: the claim says every file matching `sync_server.*`
(any extension) is excluded from push, but the code only protects the
exact name `sync_server.py`: `sync_server.txt` (whose name matches
`sync_server.*`) is uploaded and returned in the pushed list. -/
theorem push_protected_counterexample :
    List.isPrefixOf "sync_server.".data "sync_server.txt".data = true ∧
    (pushScriptsToCodespace c3Tree (fun _ => true)).1 =
      .ok [["sync_server.txt".data]] ∧
    (pushScriptsToCodespace c3Tree (fun _ => true)).2 =
      [["sync_server.txt".data]] :=
  ⟨by decide, rfl, rfl⟩

/-- C3 amended: push never uploads a file whose name is EXACTLY
`sync_server.py`, `metadatafarmer.py` or `CLAUDE.md` (matched at any
depth), nor any file whose path passes through a component named
`meta_data`; such files are silently dropped, while every other eligible
file (no hidden/`node_modules`/`meta_data` component, name not protected,
extension not forbidden-for-sync) is uploaded when the network accepts
all uploads. -/
theorem push_protected_exact
    (es : List FsEntry) (net : Str → Bool) (p : Path) (f : FsEntry)
    (hwf : wfChildren es = true) (hAt : TreeFileAt es p f) :
    (PROTECTED_FILES.contains (FsEntry.name f) = true →
      p ∉ (pushScriptsToCodespace es net).2 ∧
        ∀ l, (pushScriptsToCodespace es net).1 = .ok l → p ∉ l) ∧
    ("meta_data".data ∈ p →
      p ∉ (pushScriptsToCodespace es net).2 ∧
        ∀ l, (pushScriptsToCodespace es net).1 = .ok l → p ∉ l) ∧
    ((∀ c ∈ p, skipName PROTECTED_DIRS c = false) →
      PROTECTED_FILES.contains (FsEntry.name f) = false →
      shouldBlockSync (FsEntry.name f) = false →
      (∀ s, net s = true) →
      p ∈ (pushScriptsToCodespace es net).2 ∧
        ∃ l, (pushScriptsToCodespace es net).1 = .ok l ∧ p ∈ l) := by
  refine ⟨?_, ?_, ?_⟩
  · intro hname
    have key : p ∉ (collectFilesRecursive es [] PROTECTED_FILES
        PROTECTED_DIRS).map PushFile.path := by
      intro hp
      rcases collect_inv es [] _ _ p hp with
        ⟨dirs, g, hq, hAt2, _, _, hpr, _⟩
      rw [List.nil_append] at hq
      subst hq
      have hfg := treeFileAt_unique hwf hAt hAt2
      rw [hfg, hpr] at hname
      cases hname
    refine ⟨fun hp => key ?_, fun l hl hp => key ?_⟩
    · exact pushLoop_calls_subset net _ p hp
    · exact pushLoop_ok_subset net _ l hl p hp
  · intro hmeta
    have key : p ∉ (collectFilesRecursive es [] PROTECTED_FILES
        PROTECTED_DIRS).map PushFile.path := by
      intro hp
      rcases collect_inv es [] _ _ p hp with
        ⟨dirs, g, hq, hAt2, hdirs, hsk, _, _⟩
      rw [List.nil_append] at hq
      subst hq
      rcases List.mem_append.mp hmeta with h1 | h1
      · have := hdirs _ h1
        rw [show skipName PROTECTED_DIRS "meta_data".data = true from by
          decide] at this
        cases this
      · have h2 : "meta_data".data = FsEntry.name g := by simpa using h1
        rw [← h2] at hsk
        rw [show skipName PROTECTED_DIRS "meta_data".data = true from by
          decide] at hsk
        cases hsk
    refine ⟨fun hp => key ?_, fun l hl hp => key ?_⟩
    · exact pushLoop_calls_subset net _ p hp
    · exact pushLoop_ok_subset net _ l hl p hp
  · intro hp hprot hblock hnet
    have hin := collect_complete hAt hp hprot hblock []
    rw [List.nil_append] at hin
    have hcond : ∀ x ∈ collectFilesRecursive es [] PROTECTED_FILES
        PROTECTED_DIRS, shouldBlockSync (joinPath x.path) = false ∧
        net (joinPath x.path) = true := by
      intro x hx
      have hxp : x.path ∈ (collectFilesRecursive es [] PROTECTED_FILES
          PROTECTED_DIRS).map PushFile.path := List.mem_map_of_mem _ hx
      rcases collect_inv es [] _ _ x.path hxp with
        ⟨dirs, g, hq, _, _, _, _, hbl⟩
      rw [List.nil_append] at hq
      refine ⟨?_, hnet _⟩
      rw [hq]
      exact shouldBlockSync_joinPath dirs hbl
    have hsucc := pushLoop_success net _ hcond
    rw [pushScriptsToCodespace, hsucc]
    exact ⟨hin, _, rfl, hin⟩

/-- Witness for the amended C3: in scenario S3 the eligible file
`scripts/x.py` is uploaded and appears in the pushed list. -/
theorem push_protected_exact_witness :
    (["scripts".data, "x.py".data] : Path) ∈
      (pushScriptsToCodespace c3wTree (fun _ => true)).2 ∧
    ∃ l, (pushScriptsToCodespace c3wTree (fun _ => true)).1 = .ok l ∧
      ["scripts".data, "x.py".data] ∈ l :=
  (push_protected_exact c3wTree (fun _ => true) _
    (FsEntry.file "x.py".data (some 5) "print(1)".data none true)
    (by decide)
    (TreeFileAt.there (List.mem_cons_self _ _)
      (TreeFileAt.here (List.mem_cons_self _ _)))).2.2
    (by decide) (by decide) (by decide) (fun s => rfl)

/-! ## Claim C1 -/

/-- C1 counterexample: `syncScriptsToLocal` applies NO forbidden-in-app
filter.  The remote listing offers `data.csv` (a forbidden-in-app
extension); the pull fetches it and writes it under the local app
subtree, returning it among the synced files — instead of skipping it
silently as the claim requires. -/
theorem pull_forbidden_filter_counterexample :
    FORBIDDEN_EXTENSIONS.contains (extOf "data.csv".data) = true ∧
    (syncScriptsToLocal c1Scripts c1Fetch emptyVec).writes =
      [("data.csv".data, "1,2".data)] ∧
    (syncScriptsToLocal c1Scripts c1Fetch emptyVec).calls =
      ["data.csv".data] ∧
    ∃ v1, (syncScriptsToLocal c1Scripts c1Fetch emptyVec).result =
      .ok (v1, ["data.csv".data]) :=
  ⟨by decide, rfl, rfl, _, rfl⟩

/-- C1 amended: the pull applies no forbidden-in-app filter at all — any
remote entry that is new with respect to the vector (no entry, or a falsy
stored modtime) or newer than it (stored floor strictly below the remote
floor) is fetched and its content written under the local app subtree
even when its path is forbidden-in-app (cleanup is deferred to the
scanner of `buildFileTreeFromHandle`).  The entry `s` sits anywhere in
the listing; earlier entries must fetch without error for the loop to
reach it. -/
theorem pull_writes_forbidden_paths
    (pre : List RemoteScript) (s : RemoteScript) (post : List RemoteScript)
    (fetch : Str → Option Str) (v : Vec) (content : Str)
    (hforb : FORBIDDEN_EXTENSIONS.contains (extOf s.path) = true)
    (hnew : v s.path = none ∨ ∃ m, v s.path = some m ∧
      (m = 0 ∨ Rat.floor m < Rat.floor s.modified))
    (hpre : ∀ t ∈ pre, (fetch t.path).isSome)
    (hfetch : fetch s.path = some content) :
    (s.path, content) ∈
      (syncScriptsToLocal (pre ++ s :: post) fetch v).writes ∧
    s.path ∈ (syncScriptsToLocal (pre ++ s :: post) fetch v).calls := by
  clear hforb
  suffices h : ∀ (pre2 : List RemoteScript),
      (∀ t ∈ pre2, (fetch t.path).isSome) → ∀ w : Vec,
      (s.path, content) ∈ (pullLoop v fetch (pre2 ++ s :: post) w).writes ∧
      s.path ∈ (pullLoop v fetch (pre2 ++ s :: post) w).calls by
    exact h pre hpre v
  intro pre2
  induction pre2 with
  | nil =>
    intro _ w
    rcases hnew with hvs | ⟨m, hvs, hcond⟩
    · simp only [List.nil_append, pullLoop, hvs, hfetch, pullCons]
      exact ⟨List.mem_cons_self _ _, List.mem_cons_self _ _⟩
    · simp only [List.nil_append, pullLoop, hvs, if_pos hcond, hfetch,
        pullCons]
      exact ⟨List.mem_cons_self _ _, List.mem_cons_self _ _⟩
  | cons t rest ih =>
    intro hpre3 w
    have hpre2 : ∀ u ∈ rest, (fetch u.path).isSome := fun u hu =>
      hpre3 u (List.mem_cons_of_mem _ hu)
    obtain ⟨ct, hct⟩ :=
      Option.isSome_iff_exists.mp (hpre3 t (List.mem_cons_self _ _))
    cases hvt : v t.path with
    | none =>
      have hrec := ih hpre2
        (vecUpdate w t.path ((Rat.floor t.modified : ℤ) : ℚ))
      simp only [List.cons_append, pullLoop, hvt, hct, pullCons]
      exact ⟨List.mem_cons_of_mem _ hrec.1, List.mem_cons_of_mem _ hrec.2⟩
    | some m =>
      by_cases hcond : m = 0 ∨ Rat.floor m < Rat.floor t.modified
      · have hrec := ih hpre2
          (vecUpdate w t.path ((Rat.floor t.modified : ℤ) : ℚ))
        simp only [List.cons_append, pullLoop, hvt, if_pos hcond, hct,
          pullCons]
        exact ⟨List.mem_cons_of_mem _ hrec.1, List.mem_cons_of_mem _ hrec.2⟩
      · have hrec := ih hpre2 (vecUpdate w t.path m)
        simp only [List.cons_append, pullLoop, hvt, if_neg hcond]
        exact hrec

/-- Witness for the amended C1, exercising the newer-than-vector branch:
the vector already holds `data.csv` at modtime 1, the listing offers it
at modtime 3 behind `a.py`, and the forbidden-in-app entry is still
fetched and written by the pull. -/
theorem pull_writes_forbidden_paths_witness :
    ("data.csv".data, "1,2".data) ∈
      (syncScriptsToLocal ([⟨"a.py".data, 2⟩] ++ ⟨"data.csv".data, 3⟩ ::
        []) c1Fetch (vecUpdate emptyVec "data.csv".data 1)).writes ∧
    "data.csv".data ∈
      (syncScriptsToLocal ([⟨"a.py".data, 2⟩] ++ ⟨"data.csv".data, 3⟩ ::
        []) c1Fetch (vecUpdate emptyVec "data.csv".data 1)).calls :=
  pull_writes_forbidden_paths [⟨"a.py".data, 2⟩] ⟨"data.csv".data, 3⟩ []
    c1Fetch (vecUpdate emptyVec "data.csv".data 1) "1,2".data (by decide)
    (Or.inr ⟨1, by decide, Or.inr (by decide)⟩) (by decide) rfl

/-! ## Lemmas: floors and the pull loop -/

theorem ratFloor_eq_intFloor (q : ℚ) : Rat.floor q = ⌊q⌋ :=
  (Rat.floor_def' q).trans Rat.floor_def.symm

theorem le_cast_ratFloor_of_lt {m : ℚ} {k : ℤ} (h : Rat.floor m < k) :
    m ≤ (k : ℚ) := by
  have h1 : m < ((Rat.floor m : ℤ) : ℚ) + 1 := by
    rw [ratFloor_eq_intFloor]
    exact_mod_cast Int.lt_floor_add_one m
  have h2 : ((Rat.floor m : ℤ) : ℚ) + 1 ≤ (k : ℚ) := by
    have h3 : Rat.floor m + 1 ≤ k := h
    exact_mod_cast h3
  exact le_of_lt (lt_of_lt_of_le h1 h2)

theorem zero_le_cast_ratFloor {q : ℚ} (h : 0 ≤ q) :
    (0 : ℚ) ≤ ((Rat.floor q : ℤ) : ℚ) := by
  rw [ratFloor_eq_intFloor]
  exact_mod_cast Int.floor_nonneg.mpr h

theorem ratFloor_cast_ratFloor (q : ℚ) :
    Rat.floor ((Rat.floor q : ℤ) : ℚ) = Rat.floor q := by
  rw [ratFloor_eq_intFloor, ratFloor_eq_intFloor]
  exact Int.floor_intCast _

theorem cast_ratFloor_ne_zero {q : ℚ} (h : 1 ≤ Rat.floor q) :
    ((Rat.floor q : ℤ) : ℚ) ≠ 0 := by
  intro h0
  have : (Rat.floor q : ℤ) = 0 := by exact_mod_cast h0
  omega

theorem pullLoop_mono (v0 : Vec) (fetch : Str → Option Str) :
    ∀ (scripts : List RemoteScript) (v : Vec) (r : Vec × List Str),
      (∀ t ∈ scripts, 0 ≤ t.modified) →
      (pullLoop v0 fetch scripts v).result = .ok r →
      ∀ p m mc, v0 p = some m → v p = some mc → m ≤ mc →
        ∃ m2, r.1 p = some m2 ∧ m ≤ m2 := by
  intro scripts
  induction scripts with
  | nil =>
    intro v r _ hres p m mc _ hmc hle
    simp only [pullLoop] at hres
    injection hres with h
    rw [← h]
    exact ⟨mc, hmc, hle⟩
  | cons s rest ih =>
    intro v r hts hres p m mc hm hmc hle
    have hts2 : ∀ t ∈ rest, 0 ≤ t.modified := fun t ht =>
      hts t (List.mem_cons_of_mem _ ht)
    have hs0 : 0 ≤ s.modified := hts s (List.mem_cons_self _ _)
    simp only [pullLoop] at hres
    cases hvs : v0 s.path with
    | none =>
      simp only [hvs] at hres
      cases hf : fetch s.path with
      | none => simp only [hf] at hres; cases hres
      | some ct =>
        simp only [hf, pullCons] at hres
        cases hin : (pullLoop v0 fetch rest
            (vecUpdate v s.path ((Rat.floor s.modified : ℤ) : ℚ))).result with
        | error e => rw [hin] at hres; cases hres
        | ok pr =>
          rw [hin] at hres
          simp only [Except.map] at hres
          injection hres with h
          have hne : ¬ p = s.path := by
            intro hp; rw [hp, hvs] at hm; cases hm
          have hv2 : vecUpdate v s.path ((Rat.floor s.modified : ℤ) : ℚ) p =
              some mc := by simp [vecUpdate, hne, hmc]
          rcases ih _ pr hts2 hin p m mc hm hv2 hle with ⟨m2, hm2, hle2⟩
          exact ⟨m2, by rw [← h]; exact hm2, hle2⟩
    | some m0 =>
      simp only [hvs] at hres
      by_cases hcond : m0 = 0 ∨ Rat.floor m0 < Rat.floor s.modified
      · rw [if_pos hcond] at hres
        cases hf : fetch s.path with
        | none => simp only [hf] at hres; cases hres
        | some ct =>
          simp only [hf, pullCons] at hres
          cases hin : (pullLoop v0 fetch rest
              (vecUpdate v s.path ((Rat.floor s.modified : ℤ) : ℚ))).result
            with
          | error e => rw [hin] at hres; cases hres
          | ok pr =>
            rw [hin] at hres
            simp only [Except.map] at hres
            injection hres with h
            by_cases hp : p = s.path
            · have hmm : m = m0 := by
                rw [hp, hvs] at hm; injection hm with h2; exact h2.symm
              have hv2 : vecUpdate v s.path
                  ((Rat.floor s.modified : ℤ) : ℚ) p =
                  some ((Rat.floor s.modified : ℤ) : ℚ) := by
                simp [vecUpdate, hp]
              have hm0le : m ≤ ((Rat.floor s.modified : ℤ) : ℚ) := by
                rw [hmm]
                rcases hcond with h0 | hlt
                · rw [h0]; exact zero_le_cast_ratFloor hs0
                · exact le_cast_ratFloor_of_lt hlt
              rcases ih _ pr hts2 hin p m _ hm hv2 hm0le with
                ⟨m2, hm2, hle2⟩
              exact ⟨m2, by rw [← h]; exact hm2, hle2⟩
            · have hv2 : vecUpdate v s.path
                  ((Rat.floor s.modified : ℤ) : ℚ) p = some mc := by
                simp [vecUpdate, hp, hmc]
              rcases ih _ pr hts2 hin p m mc hm hv2 hle with ⟨m2, hm2, hle2⟩
              exact ⟨m2, by rw [← h]; exact hm2, hle2⟩
      · rw [if_neg hcond] at hres
        by_cases hp : p = s.path
        · have hmm : m = m0 := by
            rw [hp, hvs] at hm; injection hm with h2; exact h2.symm
          have hv2 : vecUpdate v s.path m0 p = some m0 := by
            simp [vecUpdate, hp]
          exact ih _ r hts2 hres p m m0 hm hv2 (le_of_eq hmm)
        · have hv2 : vecUpdate v s.path m0 p = some mc := by
            simp [vecUpdate, hp, hmc]
          exact ih _ r hts2 hres p m mc hm hv2 hle

/-! ## Claim C5 -/

/-- C5: across any sequence of pulls (with real, nonnegative remote
modtimes) every key of the Sync Vector is non-decreasing, and push
neither reads nor writes the vector: `apiPush` returns the session state
unchanged and its outcome does not depend on the state. -/
theorem syncVector_monotone_push_stateless :
    (∀ (reqs : List PullRequest) (v : Vec) (p : Str) (m : ℚ),
      (∀ r ∈ reqs, ∀ t ∈ r.scripts, 0 ≤ t.modified) →
      v p = some m →
      ∃ m2, applyPulls v reqs p = some m2 ∧ m ≤ m2) ∧
    (∀ (st : SessionState) (es : List FsEntry) (net : Str → Bool),
      (apiPush st es net).1 = st ∧
      ∀ st2, (apiPush st es net).2 = (apiPush st2 es net).2) := by
  constructor
  · intro reqs
    induction reqs with
    | nil =>
      intro v p m _ hm
      exact ⟨m, hm, le_refl m⟩
    | cons r rest ih =>
      intro v p m hts hm
      have hstep : ∃ m1, applyPull v r p = some m1 ∧ m ≤ m1 := by
        rw [applyPull, syncScriptsToLocal]
        cases hres : (pullLoop v r.fetch r.scripts v).result with
        | error e => exact ⟨m, hm, le_refl m⟩
        | ok pr =>
          exact pullLoop_mono v r.fetch r.scripts v pr
            (hts r (List.mem_cons_self _ _)) hres p m m hm hm (le_refl m)
      rcases hstep with ⟨m1, hm1, hle1⟩
      rcases ih (applyPull v r) p m1
        (fun r2 hr2 => hts r2 (List.mem_cons_of_mem _ hr2)) hm1 with
        ⟨m2, hm2, hle2⟩
      exact ⟨m2, hm2, le_trans hle1 hle2⟩
  · intro st es net
    exact ⟨rfl, fun _ => rfl⟩

/-- Witness for C5 at concrete inputs: a pull of `a.py` at modtime 3 over
a vector holding 2 yields a value at least 2, and a push leaves a
concrete session state untouched. -/
theorem syncVector_monotone_push_stateless_witness :
    (∃ m2, applyPulls (vecUpdate emptyVec "a.py".data 2)
      [⟨[⟨"a.py".data, 3⟩], fun _ => some "x".data⟩] "a.py".data =
        some m2 ∧ (2 : ℚ) ≤ m2) ∧
    (apiPush ⟨vecUpdate emptyVec "a.py".data 2⟩ c3Tree
      (fun _ => true)).1 = ⟨vecUpdate emptyVec "a.py".data 2⟩ :=
  ⟨syncVector_monotone_push_stateless.1
      [⟨[⟨"a.py".data, 3⟩], fun _ => some "x".data⟩]
      (vecUpdate emptyVec "a.py".data 2) "a.py".data 2
      (by decide) (by decide),
    (syncVector_monotone_push_stateless.2
      ⟨vecUpdate emptyVec "a.py".data 2⟩ c3Tree (fun _ => true)).1⟩

/-! ## Claim C6 -/

/-- C6 counterexample: a pull whose second fetch fails returns an error
carrying NO partial result — the vector updated for `a.py` and the synced
list are discarded (only the write trace shows the partial work) — and a
push whose second upload fails likewise throws away its pushed list. -/
theorem sync_error_partial_result_counterexample :
    (syncScriptsToLocal c6Scripts c6Fetch emptyVec).result = .error () ∧
    (syncScriptsToLocal c6Scripts c6Fetch emptyVec).writes =
      [("a.py".data, "x".data)] ∧
    (∀ v1 syn, (syncScriptsToLocal c6Scripts c6Fetch emptyVec).result ≠
      .ok (v1, syn)) ∧
    (pushScriptsToCodespace c6pTree c6pNet).1 = .error () ∧
    (pushScriptsToCodespace c6pTree c6pNet).2 =
      [["a.py".data], ["b.py".data]] := by
  refine ⟨rfl, rfl, ?_, rfl, rfl⟩
  intro v1 syn h
  rw [show (syncScriptsToLocal c6Scripts c6Fetch emptyVec).result =
    .error () from rfl] at h
  cases h

/-- C6 amended: a mid-flight sync error aborts the remaining work and the
operation propagates the exception, DISCARDING the partial result
(`runFullSync` catches it and reports `scriptsSync = none` with the error
flag set); the pull makes no fetch call beyond the failing entry, and the
push makes no upload call beyond the failing file and loses its pushed
list. -/
theorem sync_error_aborts_and_throws :
    (∀ (pre : List RemoteScript) (s : RemoteScript)
        (post : List RemoteScript) (fetch : Str → Option Str) (v : Vec),
      (∀ t ∈ pre, (fetch t.path).isSome) →
      fetch s.path = none →
      v s.path = none →
      s.path ∉ pre.map RemoteScript.path →
      (syncScriptsToLocal (pre ++ s :: post) fetch v).result = .error () ∧
      (∀ q ∈ (syncScriptsToLocal (pre ++ s :: post) fetch v).calls,
        q ∈ pre.map RemoteScript.path ++ [s.path]) ∧
      ∀ metaOk, runFullSync (pre ++ s :: post) fetch v metaOk =
        ⟨none, false, true⟩) ∧
    (∀ (es : List FsEntry) (net : Str → Bool) (fs1 : List PushFile)
        (f : PushFile) (fs2 : List PushFile),
      collectFilesRecursive es [] PROTECTED_FILES PROTECTED_DIRS =
        fs1 ++ f :: fs2 →
      (∀ g ∈ fs1, shouldBlockSync (joinPath g.path) = false ∧
        net (joinPath g.path) = true) →
      shouldBlockSync (joinPath f.path) = false →
      net (joinPath f.path) = false →
      pushScriptsToCodespace es net =
        (.error (), fs1.map PushFile.path ++ [f.path])) := by
  constructor
  · intro pre s post fetch v hpre hfail hnew _hnotpre
    have core : ∀ (pre2 : List RemoteScript),
        (∀ t ∈ pre2, (fetch t.path).isSome) → ∀ w : Vec,
        (pullLoop v fetch (pre2 ++ s :: post) w).result = .error () ∧
        ∀ q ∈ (pullLoop v fetch (pre2 ++ s :: post) w).calls,
          q ∈ pre2.map RemoteScript.path ++ [s.path] := by
      intro pre2
      induction pre2 with
      | nil =>
        intro _ w
        constructor
        · simp [pullLoop, hnew, hfail]
        · simp [pullLoop, hnew, hfail]
      | cons t rest ih =>
        intro hpre3 w
        have hpre2 : ∀ u ∈ rest, (fetch u.path).isSome := fun u hu =>
          hpre3 u (List.mem_cons_of_mem _ hu)
        obtain ⟨ct, hct⟩ :=
          Option.isSome_iff_exists.mp (hpre3 t (List.mem_cons_self _ _))
        cases hvt : v t.path with
        | none =>
          have hrec := ih hpre2
            (vecUpdate w t.path ((Rat.floor t.modified : ℤ) : ℚ))
          simp only [List.cons_append, pullLoop, hvt, hct, pullCons,
            List.append_eq]
          constructor
          · rw [hrec.1]; rfl
          · intro q hq
            rcases List.mem_cons.mp hq with h1 | h1
            · rw [h1, List.map_cons]
              exact List.mem_append_left _ (List.mem_cons_self _ _)
            · have := hrec.2 q h1
              rw [List.map_cons, List.cons_append]
              exact List.mem_cons_of_mem _ this
        | some m =>
          by_cases hcond : m = 0 ∨ Rat.floor m < Rat.floor t.modified
          · have hrec := ih hpre2
              (vecUpdate w t.path ((Rat.floor t.modified : ℤ) : ℚ))
            simp only [List.cons_append, pullLoop, hvt, if_pos hcond, hct,
              pullCons, List.append_eq]
            constructor
            · rw [hrec.1]; rfl
            · intro q hq
              rcases List.mem_cons.mp hq with h1 | h1
              · rw [h1, List.map_cons]
                exact List.mem_append_left _ (List.mem_cons_self _ _)
              · have := hrec.2 q h1
                rw [List.map_cons, List.cons_append]
                exact List.mem_cons_of_mem _ this
          · have hrec := ih hpre2 (vecUpdate w t.path m)
            simp only [List.cons_append, pullLoop, hvt, if_neg hcond,
              List.append_eq]
            refine ⟨hrec.1, fun q hq => ?_⟩
            have := hrec.2 q hq
            rw [List.map_cons, List.cons_append]
            exact List.mem_cons_of_mem _ this
    refine ⟨(core pre hpre v).1, (core pre hpre v).2, fun metaOk => ?_⟩
    simp only [runFullSync, syncScriptsToLocal, (core pre hpre v).1]
  · intro es net fs1 f fs2 hcollect hok hb hn
    rw [pushScriptsToCodespace, hcollect]
    exact pushLoop_abort net fs1 f fs2 hok hb hn

/-- Witness for the amended C6 at the counterexample inputs: the failing
pull aborts with an error, calls only `a.py` and `b.py`, and full sync
reports the error with a null pull result; the failing push returns an
error with calls `a.py`, `b.py`. -/
theorem sync_error_aborts_and_throws_witness :
    ((syncScriptsToLocal ([⟨"a.py".data, 2⟩] ++ ⟨"b.py".data, 2⟩ :: [])
        c6Fetch emptyVec).result = .error () ∧
      (∀ q ∈ (syncScriptsToLocal ([⟨"a.py".data, 2⟩] ++
          ⟨"b.py".data, 2⟩ :: []) c6Fetch emptyVec).calls,
        q ∈ ["a.py".data] ++ ["b.py".data]) ∧
      ∀ metaOk, runFullSync ([⟨"a.py".data, 2⟩] ++ ⟨"b.py".data, 2⟩ :: [])
        c6Fetch emptyVec metaOk = ⟨none, false, true⟩) ∧
    pushScriptsToCodespace c6pTree c6pNet =
      (.error (), [["a.py".data], ["b.py".data]]) :=
  ⟨sync_error_aborts_and_throws.1 [⟨"a.py".data, 2⟩] ⟨"b.py".data, 2⟩ []
      c6Fetch emptyVec (by decide) rfl rfl (by decide),
    sync_error_aborts_and_throws.2 c6pTree c6pNet
      [⟨["a.py".data], "pa".data⟩] ⟨["b.py".data], "pb".data⟩ []
      (by decide) (by decide) (by decide) (by decide)⟩

/-! ## Claim C7 -/

theorem vecUpdate_self {v : Vec} {p : Str} {m : ℚ} (h : v p = some m) :
    vecUpdate v p m = v := by
  funext r
  by_cases hr : r = p
  · rw [vecUpdate, if_pos hr, hr, h]
  · rw [vecUpdate, if_neg hr]

theorem pullLoop_of_stable (fetch2 : Str → Option Str) :
    ∀ (scripts : List RemoteScript) (v : Vec), PullStable scripts v →
      pullLoop v fetch2 scripts v = ⟨.ok (v, []), [], []⟩ := by
  intro scripts
  induction scripts with
  | nil => intro v _; rfl
  | cons s rest ih =>
    intro v hst
    rcases hst s (List.mem_cons_self _ _) with ⟨m, hm, hm0, hflt⟩
    have hcond : ¬ (m = 0 ∨ Rat.floor m < Rat.floor s.modified) := by
      rintro (h | h)
      · exact hm0 h
      · exact hflt h
    have hst2 : PullStable rest v := fun t ht =>
      hst t (List.mem_cons_of_mem _ ht)
    simp only [pullLoop, hm, if_neg hcond, vecUpdate_self hm]
    exact ih v hst2

theorem pullLoop_untouched (v0 : Vec) (fetch : Str → Option Str) :
    ∀ (scripts : List RemoteScript) (w : Vec) (r : Vec × List Str),
      (pullLoop v0 fetch scripts w).result = .ok r →
      ∀ p, p ∉ scripts.map RemoteScript.path → r.1 p = w p := by
  intro scripts
  induction scripts with
  | nil =>
    intro w r hres p _
    simp only [pullLoop] at hres
    injection hres with h
    rw [← h]
  | cons s rest ih =>
    intro w r hres p hp
    have hps : ¬ p = s.path := by
      intro h
      exact hp (by rw [List.map_cons, h]; exact List.mem_cons_self _ _)
    have hp2 : p ∉ rest.map RemoteScript.path := fun hm =>
      hp (by rw [List.map_cons]; exact List.mem_cons_of_mem _ hm)
    have hupd : ∀ (x : ℚ), vecUpdate w s.path x p = w p := by
      intro x; simp [vecUpdate, hps]
    simp only [pullLoop] at hres
    cases hvs : v0 s.path with
    | none =>
      simp only [hvs] at hres
      cases hf : fetch s.path with
      | none => simp only [hf] at hres; cases hres
      | some ct =>
        simp only [hf, pullCons] at hres
        cases hin : (pullLoop v0 fetch rest
            (vecUpdate w s.path ((Rat.floor s.modified : ℤ) : ℚ))).result with
        | error e => rw [hin] at hres; cases hres
        | ok pr =>
          rw [hin] at hres
          simp only [Except.map] at hres
          injection hres with h
          rw [← h]
          exact (ih _ pr hin p hp2).trans (hupd _)
    | some m0 =>
      simp only [hvs] at hres
      by_cases hcond : m0 = 0 ∨ Rat.floor m0 < Rat.floor s.modified
      · rw [if_pos hcond] at hres
        cases hf : fetch s.path with
        | none => simp only [hf] at hres; cases hres
        | some ct =>
          cases hin : (pullLoop v0 fetch rest
              (vecUpdate w s.path
                ((Rat.floor s.modified : ℤ) : ℚ))).result with
          | error e =>
            simp only [hf, pullCons] at hres
            rw [hin] at hres; cases hres
          | ok pr =>
            simp only [hf, pullCons] at hres
            rw [hin] at hres
            simp only [Except.map] at hres
            injection hres with h
            rw [← h]
            exact (ih _ pr hin p hp2).trans (hupd _)
      · rw [if_neg hcond] at hres
        exact (ih _ r hres p hp2).trans (hupd _)

theorem pullLoop_stable_after (v0 : Vec) (fetch : Str → Option Str) :
    ∀ (scripts : List RemoteScript) (w : Vec) (r : Vec × List Str),
      (scripts.map RemoteScript.path).Nodup →
      (∀ t ∈ scripts, 1 ≤ Rat.floor t.modified) →
      (pullLoop v0 fetch scripts w).result = .ok r →
      PullStable scripts r.1 := by
  intro scripts
  induction scripts with
  | nil => intro w r _ _ _ t ht; cases ht
  | cons s rest ih =>
    intro w r hnd hts hres
    rw [List.map_cons, List.nodup_cons] at hnd
    obtain ⟨hsnot, hnd2⟩ := hnd
    have hts2 : ∀ t ∈ rest, 1 ≤ Rat.floor t.modified := fun t ht =>
      hts t (List.mem_cons_of_mem _ ht)
    have hs1 : 1 ≤ Rat.floor s.modified := hts s (List.mem_cons_self _ _)
    simp only [pullLoop] at hres
    have main : ∃ (w2 : Vec) (X : ℚ) (pr : Vec × List Str),
        w2 s.path = some X ∧ X ≠ 0 ∧
        ¬ Rat.floor X < Rat.floor s.modified ∧
        (pullLoop v0 fetch rest w2).result = .ok pr ∧ pr.1 = r.1 := by
      cases hvs : v0 s.path with
      | none =>
        simp only [hvs] at hres
        cases hf : fetch s.path with
        | none => simp only [hf] at hres; cases hres
        | some ct =>
          simp only [hf, pullCons] at hres
          cases hin : (pullLoop v0 fetch rest
              (vecUpdate w s.path
                ((Rat.floor s.modified : ℤ) : ℚ))).result with
          | error e => rw [hin] at hres; cases hres
          | ok pr =>
            rw [hin] at hres
            simp only [Except.map] at hres
            injection hres with h
            refine ⟨vecUpdate w s.path ((Rat.floor s.modified : ℤ) : ℚ),
              ((Rat.floor s.modified : ℤ) : ℚ), pr, by simp [vecUpdate],
              cast_ratFloor_ne_zero hs1, ?_, hin, ?_⟩
            · rw [ratFloor_cast_ratFloor]; exact lt_irrefl _
            · rw [← h]
      | some m0 =>
        simp only [hvs] at hres
        by_cases hcond : m0 = 0 ∨ Rat.floor m0 < Rat.floor s.modified
        · rw [if_pos hcond] at hres
          cases hf : fetch s.path with
          | none => simp only [hf] at hres; cases hres
          | some ct =>
            simp only [hf, pullCons] at hres
            cases hin : (pullLoop v0 fetch rest
                (vecUpdate w s.path
                  ((Rat.floor s.modified : ℤ) : ℚ))).result with
            | error e => rw [hin] at hres; cases hres
            | ok pr =>
              rw [hin] at hres
              simp only [Except.map] at hres
              injection hres with h
              refine ⟨vecUpdate w s.path ((Rat.floor s.modified : ℤ) : ℚ),
                ((Rat.floor s.modified : ℤ) : ℚ), pr, by simp [vecUpdate],
                cast_ratFloor_ne_zero hs1, ?_, hin, ?_⟩
              · rw [ratFloor_cast_ratFloor]; exact lt_irrefl _
              · rw [← h]
        · rw [if_neg hcond] at hres
          push_neg at hcond
          exact ⟨vecUpdate w s.path m0, m0, r, by simp [vecUpdate],
            hcond.1, not_lt.mpr hcond.2, hres, rfl⟩
    rcases main with ⟨w2, X, pr, hX, hX0, hXfl, hres2, hpr1⟩
    intro t ht
    rcases List.mem_cons.mp ht with h1 | h1
    · subst h1
      have hkeep : pr.1 t.path = w2 t.path :=
        pullLoop_untouched v0 fetch rest w2 pr hres2 t.path hsnot
      exact ⟨X, by rw [← hpr1, hkeep]; exact hX, hX0, hXfl⟩
    · rcases ih w2 pr hnd2 hts2 hres2 t h1 with ⟨m2, hm2, hm20, hnl⟩
      exact ⟨m2, by rw [← hpr1]; exact hm2, hm20, hnl⟩

/-- C7 counterexample: the pull is NOT idempotent on every listing with
real timestamps.  The loop reads `lastSync[filePath]` from the FROZEN
input map while writing the copy `newLastSync`, so with the same path
listed twice, newest first (floors 9 and 5, both at least 1), a first
pull from the empty vector downloads both duplicates and stores the
OLDER floor 5 last; a second pull over the returned vector then
re-fetches and re-writes `p.py` (its stored floor 5 is below the remote
floor 9) instead of downloading nothing. -/
theorem pull_idempotent_counterexample :
    (∀ t ∈ c7dScripts, 1 ≤ Rat.floor t.modified) ∧
    ∃ r : Vec × List Str,
      (syncScriptsToLocal c7dScripts c7dFetch emptyVec).result = .ok r ∧
      r.1 "p.py".data = some 5 ∧
      (syncScriptsToLocal c7dScripts c7dFetch r.1).calls =
        ["p.py".data] ∧
      (syncScriptsToLocal c7dScripts c7dFetch r.1).writes =
        [("p.py".data, "x".data)] :=
  ⟨by decide, _, rfl, rfl, rfl, rfl⟩

/-- C7 amended: pull is idempotent against a fixed remote listing that
lists each path at most once (with real timestamps, i.e. integer-second
floors of at least 1): a second pull run with the vector returned by a
successful first pull over the same listing downloads nothing (no fetch
calls, no writes, for any fetch oracle), returns an empty synced-files
list, and returns a vector equal to its input.  Without the
duplicate-free hypothesis this fails, because the loop reads the frozen
input `lastSync` while writing the copy `newLastSync`. -/
theorem pull_idempotent (scripts : List RemoteScript)
    (fetch : Str → Option Str) (v0 : Vec) (r : Vec × List Str)
    (hnodup : (scripts.map RemoteScript.path).Nodup)
    (hmod : ∀ t ∈ scripts, 1 ≤ Rat.floor t.modified)
    (h1 : (syncScriptsToLocal scripts fetch v0).result = .ok r) :
    ∀ fetch2, syncScriptsToLocal scripts fetch2 r.1 =
      ⟨.ok (r.1, []), [], []⟩ :=
  fun fetch2 => pullLoop_of_stable fetch2 scripts r.1
    (pullLoop_stable_after v0 fetch scripts v0 r hnodup hmod h1)

/-- Witness for the amended C7: pulling `a/b.py` once from the empty
vector (a duplicate-free listing) and then pulling again with the
returned vector syncs nothing and leaves the vector unchanged. -/
theorem pull_idempotent_witness :
    ∃ r : Vec × List Str,
      (syncScriptsToLocal c7Scripts c7Fetch emptyVec).result = .ok r ∧
      syncScriptsToLocal c7Scripts (fun _ => none) r.1 =
        ⟨.ok (r.1, []), [], []⟩ :=
  ⟨_, rfl, pull_idempotent c7Scripts c7Fetch emptyVec _ (by decide)
    (by decide) rfl (fun _ => none)⟩

/-! ## Lemmas: the tree scan -/

theorem attach_map_fn {α β : Type} (l : List α) (g : α → β) :
    (l.attach.map fun x => g x.1) = l.map g := by
  simp

theorem scanChildren_eq (es : List FsEntry) (curPath : Path)
    (isApp : Bool) :
    scanChildren es curPath isApp =
      ((insertionSortBy entryLe (es.filter (keepEntry isApp))).map
        (fun e => (scanEntry e curPath isApp).1),
       levelDeleted isApp es ++
        ((insertionSortBy entryLe (es.filter (keepEntry isApp))).map
          (fun e => (scanEntry e curPath isApp).2)).flatten) := by
  rw [scanChildren]
  simp only [List.map_map, Function.comp, List.map_subtype,
    List.unattach_attach]
  rfl

theorem filePathsList_append (l1 l2 : List TreeNode) :
    filePathsList (l1 ++ l2) = filePathsList l1 ++ filePathsList l2 := by
  induction l1 with
  | nil => simp [filePathsList]
  | cons t rest ih =>
    cases t with
    | mk n p d ext lm cs =>
      cases d
      · simp only [List.cons_append, filePathsList, ih]
      · simp only [List.cons_append, filePathsList, ih, List.append_assoc]

theorem ScannedFileAt.path_nonempty {es : List FsEntry} {isApp : Bool} {p : Path}
    {f : FsEntry} (h : ScannedFileAt es isApp p f) : p ≠ [] := by
  cases h <;> simp

theorem AppFileAt.path_not_empty {es : List FsEntry} {isApp : Bool} {p : Path}
    {f : FsEntry} (h : AppFileAt es isApp p f) : p ≠ [] := by
  cases h <;> simp

theorem scannedFileAt_cons {es : List FsEntry} {isApp : Bool} {p : Path}
    {f e : FsEntry} (h : ScannedFileAt es isApp p f) :
    ScannedFileAt (e :: es) isApp p f := by
  cases h with
  | here hm hk => exact .here (List.mem_cons_of_mem _ hm) hk
  | there hm hs hsub => exact .there (List.mem_cons_of_mem _ hm) hs hsub

theorem filePaths_map_scan :
    ∀ (l : List FsEntry) (curPath : Path) (isApp : Bool) (q : Path),
      q ∈ filePathsList (l.map fun e => (scanEntry e curPath isApp).1) →
      ∃ e ∈ l,
        ((FsEntry.isFile e = true ∧ q = curPath ++ [FsEntry.name e]) ∨
         (∃ dn cs, e = .dir dn cs ∧ q ∈ filePathsList
            (scanChildren cs (curPath ++ [dn])
              (isApp || dn = "app_folder".data)).1)) := by
  intro l curPath isApp q
  induction l with
  | nil => intro h; simp [filePathsList] at h
  | cons e rest ih =>
    intro h
    cases e with
    | file n sz c lm d =>
      rw [List.map_cons] at h
      simp only [scanEntry] at h
      rw [filePathsList] at h
      rcases List.mem_cons.mp h with h1 | h1
      · exact ⟨_, List.mem_cons_self _ _, Or.inl ⟨rfl, h1⟩⟩
      · rcases ih h1 with ⟨e2, he2, hp⟩
        exact ⟨e2, List.mem_cons_of_mem _ he2, hp⟩
    | dir dn cs =>
      rw [List.map_cons] at h
      simp only [scanEntry] at h
      rw [filePathsList] at h
      rcases List.mem_append.mp h with h1 | h1
      · exact ⟨_, List.mem_cons_self _ _, Or.inr ⟨dn, cs, rfl, h1⟩⟩
      · rcases ih h1 with ⟨e2, he2, hp⟩
        exact ⟨e2, List.mem_cons_of_mem _ he2, hp⟩

theorem scan_paths_inv_aux :
    ∀ (N : Nat) (es : List FsEntry), sizeOf es ≤ N →
      ∀ (curPath : Path) (isApp : Bool) (q : Path),
        q ∈ filePathsList (scanChildren es curPath isApp).1 →
        ∃ p g, q = curPath ++ p ∧ ScannedFileAt es isApp p g := by
  intro N
  induction N with
  | zero =>
    intro es hs
    exfalso
    cases es with
    | nil => simp at hs
    | cons e rest => simp at hs
  | succ n ih =>
    intro es hs curPath isApp q hq
    rw [scanChildren_eq] at hq
    rcases filePaths_map_scan _ curPath isApp q hq with ⟨e, he, hcase⟩
    have hek : e ∈ es.filter (keepEntry isApp) := mem_insertionSortBy.mp he
    have hee : e ∈ es := (List.mem_filter.mp hek).1
    have hkeep : keepEntry isApp e = true := (List.mem_filter.mp hek).2
    rcases hcase with ⟨hf, hq2⟩ | ⟨dn, cs, rfl, hq2⟩
    · cases e with
      | dir dn cs => simp [FsEntry.isFile] at hf
      | file fn sz c lm d =>
        refine ⟨[fn], .file fn sz c lm d, by simpa [FsEntry.name] using hq2,
          .here hee ?_⟩
        rw [keepEntry] at hkeep
        revert hkeep
        cases isApp && shouldDeleteFile fn sz <;> simp
    · have hcs : sizeOf cs ≤ n := by
        have h1 := List.sizeOf_lt_of_mem hee
        simp only [FsEntry.dir.sizeOf_spec] at h1
        omega
      rcases ih cs hcs (curPath ++ [dn])
        (isApp || dn = "app_folder".data) q hq2 with ⟨p2, g, hq3, hS⟩
      refine ⟨dn :: p2, g, by rw [hq3]; simp, ?_⟩
      refine .there hee ?_ hS
      rw [keepEntry] at hkeep
      revert hkeep
      cases SKIP_FOLDERS.contains dn <;> simp

theorem scan_paths_inv {es : List FsEntry} {curPath : Path} {isApp : Bool}
    {q : Path} (hq : q ∈ filePathsList (scanChildren es curPath isApp).1) :
    ∃ p g, q = curPath ++ p ∧ ScannedFileAt es isApp p g :=
  scan_paths_inv_aux (sizeOf es) es le_rfl curPath isApp q hq

theorem appFile_vs_scanned {es : List FsEntry} {isApp : Bool} {p : Path}
    {f : FsEntry} (hwf : wfChildren es = true)
    (hAt : AppFileAt es isApp p f) (hforb : fileForbidden f = true) :
    ∀ g, ScannedFileAt es isApp p g → False := by
  induction hAt with
  | @here es2 isApp2 n sz c lm d hApp hm =>
    intro g hS
    cases hS with
    | here hm2 hk =>
      have heq := name_injective hwf hm2 hm rfl
      injection heq with h1 h2 h3 h4 h5
      subst h2
      rw [hApp, Bool.true_and] at hk
      rw [fileForbidden] at hforb
      rw [hforb] at hk
      cases hk
    | there hm2 hs hsub => exact absurd rfl hsub.path_nonempty
  | @there es2 isApp2 dn cs p2 f2 hm hs hsub ih =>
    intro g hS
    cases hS with
    | here hm2 hk => exact absurd rfl hsub.path_not_empty
    | there hm2 hs2 hsub2 =>
      have := name_injective hwf hm hm2 rfl
      cases this
      exact ih (wfChildren_dir hwf hm) hforb _ hsub2

/-! ## Claim C4 -/

/-- Every forbidden file reached by the scan inside the app subtree has
its name reported in the deleted list of its scan. -/
theorem scan_reports_forbidden {f : FsEntry}
    (hforb : fileForbidden f = true) :
    ∀ {es2 : List FsEntry} {isApp2 : Bool} {p2 : Path},
      AppFileAt es2 isApp2 p2 f →
      ∀ curPath, FsEntry.name f ∈ (scanChildren es2 curPath isApp2).2 := by
  intro es2 isApp2 p2 hAt2
  induction hAt2 with
  | @here es3 isApp3 n sz c lm d hApp hm =>
    intro curPath
    rw [scanChildren_eq]
    refine List.mem_append_left _ ?_
    refine List.mem_filterMap.mpr ⟨.file n sz c lm d, hm, ?_⟩
    rw [fileForbidden] at hforb
    rw [hApp]
    simp [FsEntry.name, hforb]
  | @there es3 isApp3 dn cs p3 f3 hm hs hsub ih =>
    intro curPath
    rw [scanChildren_eq]
    refine List.mem_append_right _ ?_
    refine List.mem_flatten.mpr
      ⟨(scanEntry (.dir dn cs) curPath isApp3).2, ?_, ?_⟩
    · refine List.mem_map.mpr ⟨.dir dn cs, ?_, rfl⟩
      refine mem_insertionSortBy.mpr (List.mem_filter.mpr ⟨hm, ?_⟩)
      rw [keepEntry, hs]
      rfl
    · simp only [scanEntry]
      exact ih hforb (curPath ++ [dn])

/-- C4: for every scan of the project tree, a file under the app subtree
classified forbidden-in-app (forbidden extension, or a `.txt` whose
determined size exceeds 50 KiB) never appears among the file paths of the
returned snapshot, and its name is reported in `deletedFiles` — whatever
the value of its `deleteOk` flag, i.e. regardless of whether the deletion
attempt succeeds. -/
theorem scan_excludes_and_reports_forbidden
    (rn : Str) (rootChildren : List FsEntry) (p : Path) (f : FsEntry)
    (hwf : wfChildren rootChildren = true)
    (hAt : AppFileAt rootChildren false p f)
    (hforb : fileForbidden f = true) :
    FsEntry.name f ∈ (buildFileTreeFromHandle (.dir rn rootChildren)).2 ∧
    (rn :: p) ∉
      filePathsList [(buildFileTreeFromHandle (.dir rn rootChildren)).1] := by
  constructor
  · exact scan_reports_forbidden hforb hAt [rn]
  · intro hmem
    have hmem2 : (rn :: p) ∈
        filePathsList (scanChildren rootChildren [rn] false).1 := by
      simpa [buildFileTreeFromHandle, filePathsList] using hmem
    rcases scan_paths_inv hmem2 with ⟨p2, g, hq, hS⟩
    have hp2 : p = p2 := by
      have : [rn] ++ p = [rn] ++ p2 := by simpa using hq
      exact List.append_cancel_left this
    subst hp2
    exact appFile_vs_scanned hwf hAt hforb g hS

/-- Witness for C4: scanning a root containing
`app_folder/scripts/secret.csv` (scenario S1 shape) reports the csv
deleted and omits it from the snapshot, with `deleteOk = false` showing
the report happens even if deletion fails. -/
theorem scan_excludes_and_reports_forbidden_witness :
    "secret.csv".data ∈ (buildFileTreeFromHandle (.dir "project".data
      [.dir "app_folder".data [.dir "scripts".data
        [.file "secret.csv".data (some 9) "s".data none false]]])).2 ∧
    ["project".data, "app_folder".data, "scripts".data,
      "secret.csv".data] ∉
      filePathsList [(buildFileTreeFromHandle (.dir "project".data
        [.dir "app_folder".data [.dir "scripts".data
          [.file "secret.csv".data (some 9) "s".data none false]]])).1] :=
  scan_excludes_and_reports_forbidden "project".data _ _
    (FsEntry.file "secret.csv".data (some 9) "s".data none false)
    (by decide)
    (AppFileAt.there (List.mem_cons_self _ _) (by decide)
      (AppFileAt.there (List.mem_cons_self _ _) (by decide)
        (AppFileAt.here (by decide) (List.mem_cons_self _ _))))
    (by decide)

/-! ## Claim C10 -/

/-- C10: a `.txt` file under the app subtree whose size cannot be
determined (`getFile` fails, modelled by `size = none`) is treated as not
forbidden: `shouldDeleteFile` is false for it, the scanner does not
report it deleted at its directory level, and it appears as a file node
in the returned snapshot — even though its real size may exceed the
50 KiB limit. -/
theorem unstattable_txt_survives_scan
    (es : List FsEntry) (curPath : Path) (n : Str) (content : Str)
    (lm : Option Int) (delOk : Bool)
    (hmem : FsEntry.file n none content lm delOk ∈ es)
    (hext : extOf n = ".txt".data)
    (hnodup : (es.map FsEntry.name).Nodup) :
    shouldDeleteFile n none = false ∧
    n ∉ levelDeleted true es ∧
    ∃ t ∈ (scanChildren es curPath true).1, TreeNode.name t = n ∧
      TreeNode.isDirectory t = false ∧ TreeNode.path t = curPath ++ [n] := by
  have hdel : shouldDeleteFile n none = false := by
    rw [shouldDeleteFile, hext]
    simp
    decide
  refine ⟨hdel, ?_, ?_⟩
  · intro hn
    rcases List.mem_filterMap.mp hn with ⟨e, he, heq⟩
    cases e with
    | dir dn cs => simp at heq
    | file n2 sz2 c2 lm2 d2 =>
      have h2 : shouldDeleteFile n2 sz2 = true ∧ n2 = n := by
        revert heq
        by_cases hd : shouldDeleteFile n2 sz2 = true
        · simp [hd]
        · simp [hd]
      have hname : FsEntry.name (.file n2 sz2 c2 lm2 d2) =
          FsEntry.name (.file n none content lm delOk) := by
        simp [FsEntry.name, h2.2]
      have := List.inj_on_of_nodup_map hnodup he hmem hname
      injection this with e1 e2
      rw [h2.2] at h2
      rw [e2] at h2
      rw [hdel] at h2
      exact Bool.false_ne_true h2.1
  · have hkeep : keepEntry true (.file n none content lm delOk) = true := by
      rw [keepEntry, Bool.true_and, hdel]
      rfl
    have hsort : FsEntry.file n none content lm delOk ∈
        insertionSortBy entryLe (es.filter (keepEntry true)) :=
      mem_insertionSortBy.mpr (List.mem_filter.mpr ⟨hmem, hkeep⟩)
    rw [scanChildren_eq]
    refine ⟨(scanEntry (.file n none content lm delOk) curPath true).1,
      List.mem_map.mpr ⟨_, hsort, rfl⟩, ?_, ?_, ?_⟩ <;>
      simp [scanEntry, TreeNode.name, TreeNode.isDirectory, TreeNode.path]

/-- Witness for C10: `app_folder/big.txt` with a failing stat survives
the scan at app level and is not reported deleted. -/
theorem unstattable_txt_survives_scan_witness :
    shouldDeleteFile "big.txt".data none = false ∧
    "big.txt".data ∉ levelDeleted true
      [FsEntry.file "big.txt".data none "b".data none false] ∧
    ∃ t ∈ (scanChildren
        [FsEntry.file "big.txt".data none "b".data none false]
        ["app_folder".data] true).1,
      TreeNode.name t = "big.txt".data ∧ TreeNode.isDirectory t = false ∧
      TreeNode.path t = ["app_folder".data] ++ ["big.txt".data] :=
  unstattable_txt_survives_scan
    [FsEntry.file "big.txt".data none "b".data none false]
    ["app_folder".data] "big.txt".data "b".data none false
    (List.mem_cons_self _ _) (by decide) (by decide)

/-! ## Lemmas: the script queue machine -/

/-- The inductive invariant of the queue machine: at most one run is
active and the flag mirrors it; the sequence tags of the start log
followed by the queue are strictly increasing (so runs start in enqueue
order and queued items are newer than every started run); all tags are
below the tag counter; queued paths are distinct. -/
abbrev QInv (s : QState) : Prop :=
  s.running.length ≤ 1 ∧
  (s.isRunning = true ↔ s.running ≠ []) ∧
  List.Sorted (· < ·)
    (s.started.map Prod.fst ++ s.queue.map Prod.fst) ∧
  (∀ k ∈ s.started.map Prod.fst ++ s.queue.map Prod.fst,
    k < s.nextSeq) ∧
  (s.queue.map Prod.snd).Nodup

theorem qinv_init : QInv initQ := by
  refine ⟨by simp [initQ], by simp [initQ], ?_, ?_, ?_⟩ <;>
    simp [initQ, List.Sorted]

theorem qinv_enqueueOne {s : QState} (h : QInv s) (p : Str) :
    QInv (enqueueOne s p) := by
  rcases h with ⟨h1, h2, h3, h4, h5⟩
  rw [enqueueOne]
  by_cases hp : p ∈ s.queue.map Prod.snd
  · rw [if_pos hp]
    exact ⟨h1, h2, h3, h4, h5⟩
  · rw [if_neg hp]
    refine ⟨h1, h2, ?_, ?_, ?_⟩
    · simp only [List.map_append, List.map_cons, List.map_nil]
      rw [← List.append_assoc]
      rw [List.Sorted, List.pairwise_append]
      refine ⟨h3, List.pairwise_singleton _ _, ?_⟩
      intro a ha b hb
      rw [List.mem_singleton] at hb
      rw [hb]
      exact h4 a ha
    · intro k hk
      simp only [List.map_append, List.map_cons, List.map_nil] at hk
      rw [← List.append_assoc, List.mem_append] at hk
      rcases hk with hk | hk
      · exact Nat.lt_succ_of_lt (h4 k hk)
      · rw [List.mem_singleton] at hk
        rw [hk]
        exact Nat.lt_succ_self _
    · simp only [List.map_append, List.map_cons, List.map_nil]
      rw [List.nodup_append]
      refine ⟨h5, List.nodup_singleton _, ?_⟩
      intro a ha hb
      rw [List.mem_singleton] at hb
      rw [hb] at ha
      exact hp ha

theorem qinv_enqueue {s : QState} (h : QInv s) (ps : List Str) :
    QInv (enqueue s ps) := by
  rw [enqueue]
  induction ps generalizing s with
  | nil => exact h
  | cons p rest ih => exact ih (qinv_enqueueOne h p)

theorem qinv_kick {s : QState} (h : QInv s) : QInv (kick s) := by
  rcases h with ⟨h1, h2, h3, h4, h5⟩
  rw [kick]
  by_cases hr : s.isRunning = true
  · rw [if_pos hr]
    exact ⟨h1, h2, h3, h4, h5⟩
  · rw [if_neg hr]
    cases hq : s.queue with
    | nil => exact ⟨h1, h2, h3, h4, h5⟩
    | cons hd rest =>
      rw [hq] at h3 h4 h5
      refine ⟨by simp, by simp, ?_, ?_, ?_⟩
      · show List.Sorted (· < ·)
          ((s.started ++ [hd]).map Prod.fst ++ rest.map Prod.fst)
        rw [List.map_append, List.append_assoc]
        simpa using h3
      · show ∀ k ∈ (s.started ++ [hd]).map Prod.fst ++
          rest.map Prod.fst, k < s.nextSeq
        intro k hk
        apply h4
        simp only [List.map_append, List.map_cons, List.map_nil,
          List.mem_append, List.mem_cons, List.mem_singleton] at hk ⊢
        tauto
      · show (rest.map Prod.snd).Nodup
        have h6 : (hd.2 :: rest.map Prod.snd).Nodup := by simpa using h5
        exact (List.nodup_cons.mp h6).2

theorem qinv_finish {s : QState} (h : QInv s) : QInv (finishStep s) := by
  rcases h with ⟨h1, h2, h3, h4, h5⟩
  rw [finishStep]
  cases hrun : s.running with
  | nil => exact ⟨h1, h2, h3, h4, h5⟩
  | cons r rs =>
    have hrs : rs = [] := by
      rw [hrun] at h1
      simpa using h1
    subst hrs
    cases hq : s.queue with
    | cons hd rest =>
      rw [hq] at h3 h4 h5
      refine ⟨by simp, ?_, ?_, ?_, ?_⟩
      · show s.isRunning = true ↔ (([] : List (Nat × Str)) ++ [hd]) ≠ []
        constructor
        · intro _; simp
        · intro _
          exact h2.mpr (by rw [hrun]; simp)
      · show List.Sorted (· < ·)
          ((s.started ++ [hd]).map Prod.fst ++ rest.map Prod.fst)
        rw [List.map_append, List.append_assoc]
        simpa using h3
      · show ∀ k ∈ (s.started ++ [hd]).map Prod.fst ++
          rest.map Prod.fst, k < s.nextSeq
        intro k hk
        apply h4
        simp only [List.map_append, List.map_cons, List.map_nil,
          List.mem_append, List.mem_cons, List.mem_singleton] at hk ⊢
        tauto
      · show (rest.map Prod.snd).Nodup
        have h6 : (hd.2 :: rest.map Prod.snd).Nodup := by simpa using h5
        exact (List.nodup_cons.mp h6).2
    | nil =>
      rw [hq] at h3 h4 h5
      refine ⟨by simp, by simp, ?_, ?_, ?_⟩
      · show List.Sorted (· < ·)
          (s.started.map Prod.fst ++ ([] : List (Nat × Str)).map Prod.fst)
        simpa using h3
      · show ∀ k ∈ s.started.map Prod.fst ++
          ([] : List (Nat × Str)).map Prod.fst, k < s.nextSeq
        intro k hk
        apply h4
        simpa using hk
      · show (([] : List (Nat × Str)).map Prod.snd).Nodup
        simp

theorem qinv_qstep {s : QState} (h : QInv s) (e : QEvent) :
    QInv (qstep s e) := by
  cases e with
  | submit ps => exact qinv_kick (qinv_enqueue h ps)
  | finish => exact qinv_finish h

theorem qinv_runQ (tr : List QEvent) : QInv (runQ tr) := by
  rw [runQ]
  have core : ∀ (s : QState), QInv s → QInv (tr.foldl qstep s) := by
    induction tr with
    | nil => intro s hs; exact hs
    | cons e rest ih =>
      intro s hs
      exact ih (qstep s e) (qinv_qstep hs e)
  exact core initQ qinv_init

/-! ## Claim C8 -/

/-- C8: the script queue runs scripts strictly sequentially in FIFO
enqueue order.  For every event trace (submissions and run completions,
interleaved at the JavaScript await boundaries): at most one script is
running at any instant; the start log is strictly increasing in enqueue
sequence tags (runs start in the order their paths were enqueued, and
submissions during a run are appended, not run in parallel); queued paths
are distinct; and enqueueing a path already present in the queue leaves
the state unchanged. -/
theorem script_queue_sequential_fifo :
    (∀ tr : List QEvent,
      (runQ tr).running.length ≤ 1 ∧
      List.Sorted (· < ·) ((runQ tr).started.map Prod.fst) ∧
      ((runQ tr).queue.map Prod.snd).Nodup) ∧
    (∀ (s : QState) (p : Str), p ∈ s.queue.map Prod.snd →
      enqueueOne s p = s) := by
  constructor
  · intro tr
    rcases qinv_runQ tr with ⟨h1, _, h3, _, h5⟩
    refine ⟨h1, ?_, h5⟩
    exact (List.pairwise_append.mp h3).1
  · intro s p hp
    rw [enqueueOne, if_pos hp]

/-- Witness for C8 at a concrete trace (scenario S5): submitting
`[a, b, a]` dedupes the second `a`; after two completions both ran in
order with never more than one active; and re-enqueueing a queued path is
a no-op. -/
theorem script_queue_sequential_fifo_witness :
    ((runQ [QEvent.submit ["a".data, "b".data, "a".data],
        QEvent.finish, QEvent.finish]).running.length ≤ 1 ∧
      List.Sorted (· < ·) ((runQ [QEvent.submit
        ["a".data, "b".data, "a".data], QEvent.finish,
        QEvent.finish]).started.map Prod.fst) ∧
      ((runQ [QEvent.submit ["a".data, "b".data, "a".data],
        QEvent.finish, QEvent.finish]).queue.map Prod.snd).Nodup) ∧
    enqueueOne ⟨[(0, "a".data)], [], false, [], 1⟩ "a".data =
      ⟨[(0, "a".data)], [], false, [], 1⟩ :=
  ⟨script_queue_sequential_fifo.1 _,
    script_queue_sequential_fifo.2 ⟨[(0, "a".data)], [], false, [], 1⟩
      "a".data (by decide)⟩

/-! ## Lemmas: the missing-module detector -/

theorem takeWhile_append_of_all {α : Type} (p : α → Bool) (X : List α)
    (y : α) (ys : List α) (hX : ∀ x ∈ X, p x = true) (hy : p y = false) :
    (X ++ y :: ys).takeWhile p = X := by
  induction X with
  | nil => simp [List.takeWhile_cons, hy]
  | cons x xs ih =>
    rw [List.cons_append, List.takeWhile_cons,
      hX x (List.mem_cons_self _ _)]
    simp only [if_true]
    rw [ih fun z hz => hX z (List.mem_cons_of_mem _ hz)]

theorem tryHere_pattern {q qq : Char} {X b : Str}
    (hq : q ∈ quoteChars) (hqq : qq ∈ quoteChars) (hX : X ≠ [])
    (hXq : ∀ c ∈ X, c ∉ quoteChars) :
    tryHere (MODULE_LIT ++ q :: (X ++ qq :: b)) = some X := by
  have hpre : MODULE_LIT.isPrefixOf
      (MODULE_LIT ++ q :: (X ++ qq :: b)) = true :=
    List.isPrefixOf_iff_prefix.mpr ⟨q :: (X ++ qq :: b), rfl⟩
  rw [tryHere, if_pos hpre, List.drop_left]
  rw [tryHereTail, if_pos hq]
  have hcap : (X ++ qq :: b).takeWhile
      (fun c => ¬ c ∈ quoteChars) = X := by
    refine takeWhile_append_of_all _ X qq b ?_ ?_
    · intro x hx
      simpa using hXq x hx
    · simpa using hqq
  rw [hcap]
  rw [show (X ++ qq :: b).drop X.length = qq :: b from List.drop_left X _]
  rw [closeQuote]
  rw [if_pos ⟨hqq, hX⟩]

theorem tryHere_sound {s X : Str} (h : tryHere s = some X) :
    ∃ q qq b, s = MODULE_LIT ++ q :: (X ++ qq :: b) ∧ q ∈ quoteChars ∧
      qq ∈ quoteChars ∧ X ≠ [] ∧ ∀ c ∈ X, c ∉ quoteChars := by
  rw [tryHere] at h
  split at h
  · rename_i hpre
    obtain ⟨t, ht⟩ := List.isPrefixOf_iff_prefix.mp hpre
    rw [show s.drop MODULE_LIT.length = t by
      rw [← ht]; exact List.drop_left _ _] at h
    cases t with
    | nil => rw [tryHereTail] at h; cases h
    | cons q rest =>
      rw [tryHereTail] at h
      split at h
      · rename_i hq
        obtain ⟨u, hu⟩ :=
          List.takeWhile_prefix (l := rest) fun c => ¬ c ∈ quoteChars
        have hdl : rest.drop (rest.takeWhile
            (fun c => ¬ c ∈ quoteChars)).length = u := by
          have h2 := List.drop_left
            (rest.takeWhile fun c => ¬ c ∈ quoteChars) u
          rw [hu] at h2
          exact h2
        rw [hdl] at h
        cases u with
        | nil => rw [closeQuote] at h; cases h
        | cons c after =>
          rw [closeQuote] at h
          split at h
          · rename_i hcond
            injection h with hXcap
            have hrest : rest = X ++ c :: after := by
              rw [← hu, hXcap]
            refine ⟨q, c, after, ?_, hq, hcond.1, ?_, ?_⟩
            · rw [← ht, hrest]
            · rw [← hXcap]; exact hcond.2
            · intro x hx
              have hx2 : x ∈ rest.takeWhile
                  (fun c => ¬ c ∈ quoteChars) := by
                rw [hXcap]; exact hx
              have := List.mem_takeWhile_imp hx2
              simpa using this
          · cases h
      · cases h
  · cases h

theorem findCapture_at (a : Str) {T X : Str}
    (ha : ∀ i < a.length,
      MODULE_LIT.isPrefixOf ((a ++ T).drop i) = false)
    (hT : tryHere T = some X) :
    findCapture (a ++ T) = some X := by
  induction a with
  | nil =>
    cases hc : T with
    | nil =>
      subst hc
      rw [tryHere] at hT
      rw [show MODULE_LIT.isPrefixOf ([] : Str) = false from rfl] at hT
      cases hT
    | cons c rest =>
      subst hc
      rw [List.nil_append, findCapture, hT]
  | cons x a2 ih =>
    have h0 : MODULE_LIT.isPrefixOf (x :: (a2 ++ T)) = false := by
      have := ha 0 (by simp)
      simpa using this
    have hth : tryHere (x :: (a2 ++ T)) = none := by
      rw [tryHere, h0]
      simp
    rw [List.cons_append, findCapture, hth]
    refine ih ?_
    intro i hi
    have := ha (i + 1) (by simpa using Nat.succ_lt_succ hi)
    simpa using this

theorem findCapture_isSome (a : Str) {T X : Str}
    (hT : tryHere T = some X) : (findCapture (a ++ T)).isSome = true := by
  induction a with
  | nil =>
    cases hc : T with
    | nil =>
      subst hc
      rw [tryHere] at hT
      rw [show MODULE_LIT.isPrefixOf ([] : Str) = false from rfl] at hT
      cases hT
    | cons c rest =>
      subst hc
      rw [List.nil_append, findCapture, hT]
      rfl
  | cons x a2 ih =>
    rw [List.cons_append, findCapture]
    cases hth : tryHere (x :: (a2 ++ T)) with
    | some r => rfl
    | none => exact ih

theorem findCapture_sound :
    ∀ {s X : Str}, findCapture s = some X →
      ∃ a q qq b, s = a ++ (MODULE_LIT ++ q :: (X ++ qq :: b)) ∧
        q ∈ quoteChars ∧ qq ∈ quoteChars ∧ X ≠ [] ∧
        ∀ c ∈ X, c ∉ quoteChars := by
  intro s
  induction s with
  | nil => intro X h; cases h
  | cons c rest ih =>
    intro X h
    cases hth : tryHere (c :: rest) with
    | some r =>
      simp only [findCapture, hth] at h
      injection h with hr
      subst hr
      rcases tryHere_sound hth with ⟨q, qq, b, heq, hq, hqq, hX, hXq⟩
      exact ⟨[], q, qq, b, by rw [← heq]; rfl, hq, hqq, hX, hXq⟩
    | none =>
      simp only [findCapture, hth] at h
      rcases ih h with ⟨a, q, qq, b, heq, hq, hqq, hX, hXq⟩
      exact ⟨c :: a, q, qq, b, by rw [List.cons_append, ← heq], hq, hqq,
        hX, hXq⟩

/-! ## Claim C9 -/

/-- C9: the missing-module detector is exactly the
`ModuleNotFoundError: No module named ...` recognizer.  First part: it
reports a module iff the stderr contains the quoted diagnostic pattern
(so any stderr without the pattern yields `none`).  Second part: when the
pattern occurs with capture `X` at its leftmost viable position, the
returned value is the alias-table image of the top-level component of `X`
(PIL→pillow, cv2→opencv-python, sklearn→scikit-learn, yaml→pyyaml, any
other name to itself, submodules cut at the first dot). -/
theorem detectMissingModule_correct :
    (∀ stderr : Str, (detectMissingModule stderr).isSome = true ↔
      HasModulePattern stderr) ∧
    (∀ (a : Str) (q qq : Char) (X b : Str),
      q ∈ quoteChars → qq ∈ quoteChars → X ≠ [] →
      (∀ c ∈ X, c ∉ quoteChars) →
      (∀ i < a.length, MODULE_LIT.isPrefixOf
        ((a ++ (MODULE_LIT ++ q :: (X ++ qq :: b))).drop i) = false) →
      detectMissingModule (a ++ (MODULE_LIT ++ q :: (X ++ qq :: b))) =
        some (moduleMap (X.takeWhile fun c => c ≠ '.'))) := by
  constructor
  · intro stderr
    constructor
    · intro h
      rw [detectMissingModule] at h
      cases hfc : findCapture stderr with
      | none => rw [hfc] at h; simp at h
      | some X =>
        rcases findCapture_sound hfc with ⟨a, q, qq, b, heq, hq, hqq,
          hX2, hXq⟩
        exact ⟨a, q, X, qq, b, by rw [heq]; simp, hq, hqq, hX2, hXq⟩
    · rintro ⟨a, q, X, qq, b, heq, hq, hqq, hX, hXq⟩
      rw [detectMissingModule]
      have hs : (findCapture stderr).isSome = true := by
        rw [heq, show a ++ MODULE_LIT ++ q :: (X ++ qq :: b) =
          a ++ (MODULE_LIT ++ q :: (X ++ qq :: b)) from by simp]
        exact findCapture_isSome a (tryHere_pattern hq hqq hX hXq)
      obtain ⟨r, hr⟩ := Option.isSome_iff_exists.mp hs
      rw [hr]
      rfl
  · intro a q qq X b hq hqq hX hXq ha
    rw [detectMissingModule,
      findCapture_at a ha (tryHere_pattern hq hqq hX hXq)]
    rfl

/-- Witness for C9 (scenario S4): a stderr containing
`ModuleNotFoundError: No module named` followed by quoted `PIL.Image`
yields `pillow`; and a stderr without the pattern yields no module. -/
theorem detectMissingModule_correct_witness :
    detectMissingModule
      ([] ++ (MODULE_LIT ++ squote :: ("PIL.Image".data ++
        squote :: []))) = some "pillow".data ∧
    (detectMissingModule "Traceback: ValueError".data).isSome = false :=
  ⟨detectMissingModule_correct.2 [] squote squote "PIL.Image".data []
      (by decide) (by decide) (by decide) (by decide) (by decide),
    by decide⟩

end VF
